import Mathlib

/-!
# Verification of packageurl-go against its specification

This file gives a shallow embedding of the purl codec implemented by
`packageurl.go` (and, where the properties concern them, of the historical
ordered-qualifier variant of the same package) and proves or refutes the
specified properties of parsing (`FromString`), serialization (`ToString`),
qualifier handling and the per-type validation rules.

Modelling conventions:

* Go strings are byte sequences; they are modelled as `List Nat` with each
  element a byte value.  All concrete strings in this development are ASCII,
  for which `gs` (code points of a Lean string literal) produces exactly the
  UTF-8 bytes.
* `strings.ToLower` is modelled byte-wise on ASCII (`toLowerStr`); it agrees
  with Go on every ASCII string, which covers every theorem below.
* Functions of the Go standard library used by the package (`net/url`,
  `path`, `sort`, `strings`) are translated here from their sources; error
  payloads (message strings) are not modelled, only which error is produced.
* Go `map` values are modelled as association lists.  Operations preserve
  key-uniqueness, and map iteration is modelled as iteration in list order;
  all theorems below only evaluate iterations whose body is order-independent.
* Go runtime panics (out-of-range slicing) are modelled explicitly by a
  `panicked` result constructor.
-/

namespace PurlGo

/-- Go strings as byte lists; all literals used are ASCII. -/
abbrev GoStr := List Nat

/-- Byte-string literal helper (ASCII literals only). -/
def gs (s : String) : GoStr := s.data.map Char.toNat

/-- The `strings.Cut` of Go at a single-byte separator: splits at the first
occurrence, returning (before, after, found). -/
def cut : GoStr → Nat → GoStr × GoStr × Bool
  | [], _ => ([], [], false)
  | b :: rest, sep =>
    if b = sep then ([], rest, true)
    else
      let r := cut rest sep
      (b :: r.1, r.2.1, r.2.2)

/-- The `strings.LastIndex` of Go for a single-byte needle. -/
def lastIndexByte : GoStr → Nat → Option Nat
  | [], _ => none
  | b :: rest, sep =>
    match lastIndexByte rest sep with
    | some i => some (i + 1)
    | none => if b = sep then some 0 else none

/-- The `strings.Index` of Go for a single-byte needle. -/
def indexByte : GoStr → Nat → Option Nat
  | [], _ => none
  | b :: rest, sep =>
    if b = sep then some 0
    else (indexByte rest sep).map (· + 1)

/-- The `strings.Contains` of Go (substring containment). -/
def containsSeq : GoStr → GoStr → Bool
  | s, sub =>
    match s with
    | [] => sub.isEmpty
    | _ :: rest => sub.isPrefixOf s || containsSeq rest sub

/-- The `strings.Index` of Go for a multi-byte needle. -/
def indexSeq : GoStr → GoStr → Option Nat
  | s, sub =>
    match s with
    | [] => if sub.isEmpty then some 0 else none
    | _ :: rest =>
      if sub.isPrefixOf s then some 0
      else (indexSeq rest sub).map (· + 1)

/-- The `strings.HasPrefix` of Go. -/
def hasPrefix (s pre : GoStr) : Bool := pre.isPrefixOf s

/-- The `strings.HasSuffix` of Go. -/
def hasSuffix (s suf : GoStr) : Bool := suf.reverse.isPrefixOf s.reverse

/-- The `strings.TrimPrefix` of Go. -/
def trimPrefix (s pre : GoStr) : GoStr :=
  if hasPrefix s pre then s.drop pre.length else s

/-- The `strings.Trim` of Go with a single-byte cutset. -/
def trimChar (s : GoStr) (c : Nat) : GoStr :=
  ((s.dropWhile (· = c)).reverse.dropWhile (· = c)).reverse

/-- ASCII lower-casing of one byte. -/
def toLowerByte (b : Nat) : Nat := if 65 ≤ b ∧ b ≤ 90 then b + 32 else b

/-- The `strings.ToLower` of Go, modelled on ASCII bytes. -/
def toLowerStr (s : GoStr) : GoStr := s.map toLowerByte

/-- ASCII letter. -/
def isAlphaB (b : Nat) : Bool := (97 ≤ b ∧ b ≤ 122) ∨ (65 ≤ b ∧ b ≤ 90)

/-- ASCII digit. -/
def isDigitB (b : Nat) : Bool := 48 ≤ b ∧ b ≤ 57

/-- The `ishex` of net/url. -/
def ishex (b : Nat) : Bool :=
  (48 ≤ b ∧ b ≤ 57) ∨ (97 ≤ b ∧ b ≤ 102) ∨ (65 ≤ b ∧ b ≤ 70)

/-- The `unhex` of net/url. -/
def unhex (b : Nat) : Nat :=
  if 48 ≤ b ∧ b ≤ 57 then b - 48
  else if 97 ≤ b ∧ b ≤ 102 then b - 97 + 10
  else if 65 ≤ b ∧ b ≤ 70 then b - 65 + 10
  else 0

/-- Upper-case hex digit of a value below 16 (the `upperhex` table of net/url). -/
def hexUpper (v : Nat) : Nat := if v < 10 then 48 + v else 65 + (v - 10)

/-- The `encoding` enumeration of net/url. -/
inductive Encoding where
  | path
  | pathSegment
  | host
  | zone
  | userPassword
  | queryComponent
  | fragment
deriving DecidableEq

/-- The `shouldEscape` of net/url, translated case by case. -/
def shouldEscape (c : Nat) (mode : Encoding) : Bool :=
  if (97 ≤ c ∧ c ≤ 122) ∨ (65 ≤ c ∧ c ≤ 90) ∨ (48 ≤ c ∧ c ≤ 57) then false
  else if (mode = .host ∨ mode = .zone) ∧
      c ∈ [33, 36, 38, 39, 40, 41, 42, 43, 44, 59, 61, 58, 91, 93, 60, 62, 34] then false
  else if c ∈ [45, 95, 46, 126] then false
  else if c ∈ [36, 38, 43, 44, 47, 58, 59, 61, 63, 64] then
    match mode with
    | .path => c = 63
    | .pathSegment => c = 47 ∨ c = 59 ∨ c = 44 ∨ c = 63
    | .userPassword => c = 64 ∨ c = 47 ∨ c = 63 ∨ c = 58
    | .queryComponent => true
    | .fragment => false
    | .host => true
    | .zone => true
  else if mode = .fragment ∧ c ∈ [33, 40, 41, 42] then false
  else true

/-- The `unescape` of net/url (percent-decoding).  Error payloads are not
modelled. -/
def unescape : GoStr → Encoding → Except Unit GoStr
  | [], _ => .ok []
  | b :: rest, mode =>
    if b = 37 then
      match rest with
      | h1 :: h2 :: rest2 =>
        if ishex h1 ∧ ishex h2 then
          let v := unhex h1 * 16 + unhex h2
          if mode = .host ∧ unhex h1 < 8 ∧ ¬(h1 = 50 ∧ h2 = 53) then .error ()
          else if mode = .zone ∧ ¬(h1 = 50 ∧ h2 = 53) ∧ v ≠ 32 ∧ shouldEscape v .host then
            .error ()
          else
            match unescape rest2 mode with
            | .error e => .error e
            | .ok t => .ok (v :: t)
        else .error ()
      | _ => .error ()
    else if b = 43 then
      match unescape rest mode with
      | .error e => .error e
      | .ok t => .ok ((if mode = .queryComponent then 32 else 43) :: t)
    else
      if (mode = .host ∨ mode = .zone) ∧ b < 128 ∧ shouldEscape b mode then .error ()
      else
        match unescape rest mode with
        | .error e => .error e
        | .ok t => .ok (b :: t)

/-- The `escape` of net/url (percent-encoding). -/
def escape (s : GoStr) (mode : Encoding) : GoStr :=
  (s.map fun c =>
    if c = 32 ∧ mode = .queryComponent then [43]
    else if shouldEscape c mode then [37, hexUpper (c / 16), hexUpper (c % 16)]
    else [c]).flatten

/-- Decidable equality of unescape results. -/
instance {α β : Type} [DecidableEq α] [DecidableEq β] : DecidableEq (Except α β) := fun a b =>
  match a, b with
  | .ok x, .ok y => if h : x = y then .isTrue (by rw [h]) else .isFalse (by simp [h])
  | .error x, .error y => if h : x = y then .isTrue (by rw [h]) else .isFalse (by simp [h])
  | .ok _, .error _ => .isFalse (by simp)
  | .error _, .ok _ => .isFalse (by simp)

/-- net/url `QueryUnescape`. -/
def queryUnescape (s : GoStr) : Except Unit GoStr := unescape s .queryComponent

/-- net/url `PathUnescape`. -/
def pathUnescape (s : GoStr) : Except Unit GoStr := unescape s .pathSegment

/-- net/url `QueryEscape`. -/
def queryEscape (s : GoStr) : GoStr := escape s .queryComponent

/-- net/url `PathEscape`. -/
def pathEscape (s : GoStr) : GoStr := escape s .pathSegment

/-- Go lexicographic byte-wise string comparison (the `<` of Go strings,
used by `sort.Strings` and `sort.Slice` below). -/
def lexLt : GoStr → GoStr → Bool
  | [], [] => false
  | [], _ :: _ => true
  | _ :: _, [] => false
  | a :: as, b :: bs => if a < b then true else if b < a then false else lexLt as bs

/-- net/url `Values` (`map[string][]string`), modelled as an association
list; map iteration order is modelled as list order (see file comment). -/
abbrev Values := List (GoStr × List GoStr)

/-- Values of a key (`v[key]`, `nil` for a missing key is `[]`). -/
def Values.lookupList (v : Values) (key : GoStr) : List GoStr :=
  match v.lookup key with
  | some vs => vs
  | none => []

/-- `Values.Get`: first value for the key, empty string when absent. -/
def Values.get (v : Values) (key : GoStr) : GoStr :=
  match Values.lookupList v key with
  | x :: _ => x
  | [] => []

/-- `Values.Has`: whether the map has an entry for the key. -/
def Values.has (v : Values) (key : GoStr) : Bool :=
  (v.lookup key).isSome

/-- `Values.Add`: append a value to the key's slice (creating the entry at
the end on first occurrence, as map insertion). -/
def Values.add (v : Values) (key value : GoStr) : Values :=
  if (v.lookup key).isSome then
    v.map fun kv => if kv.1 = key then (kv.1, kv.2 ++ [value]) else kv
  else v ++ [(key, [value])]

/-- `Values.Set`: replace the key's slice by a singleton. -/
def Values.set (v : Values) (key value : GoStr) : Values :=
  if (v.lookup key).isSome then
    v.map fun kv => if kv.1 = key then (kv.1, [value]) else kv
  else v ++ [(key, [value])]

/-- `Values.Del`: remove the key. -/
def Values.del (v : Values) (key : GoStr) : Values :=
  v.filter fun kv => kv.1 ≠ key

/-- Insertion into a sorted list of strings (helper for `sortStrings`). -/
def insertSorted (x : GoStr) : List GoStr → List GoStr
  | [] => [x]
  | y :: ys => if lexLt y x then y :: insertSorted x ys else x :: y :: ys

/-- Model of Go `sort.Strings` (insertion sort; on the duplicate-free key
sets sorted here, every sorting algorithm produces the same, unique
non-decreasing permutation, so this is a faithful model). -/
def sortStrings : List GoStr → List GoStr
  | [] => []
  | x :: xs => insertSorted x (sortStrings xs)

/-- Join rendered pairs with `&` (the single buffer of `Values.Encode`,
which writes `&` before every piece but the first). -/
def joinAmp : List GoStr → GoStr
  | [] => []
  | [p] => p
  | p :: rest => p ++ 38 :: joinAmp rest

/-- `Values.Encode`: keys sorted, each value rendered `key=value` with query
escaping, pairs joined by `&`. -/
def Values.Encode (v : Values) : GoStr :=
  let keys := sortStrings (v.map Prod.fst)
  let pieces := (keys.map fun k =>
    (Values.lookupList v k).map fun w => queryEscape k ++ [61] ++ queryEscape w).flatten
  joinAmp pieces

/-- Errors of qualifier parsing (payloads not modelled). -/
inductive QErr where
  | parseErr
  | semicolon
  | unescapeKey
  | invalidKey
  | unescapeValue
deriving DecidableEq

/-- The `strings.Split` of Go at a single-byte separator.  A loop that
repeatedly takes `strings.Cut(s, sep)` processes exactly these pieces in
order (`cut_pieces` below), which lets the query loops of the source be
expressed by structural recursion over the pieces. -/
def splitOnByte : GoStr → Nat → List GoStr
  | [], _ => [[]]
  | b :: rest, sep =>
    let r := splitOnByte rest sep
    if b = sep then [] :: r
    else (b :: r.headD []) :: r.tail

/-- The loop of net/url `parseQuery` over the `&`-separated pieces:
accumulates pairs, records the first unescape error (the semicolon error
overwrites, as in the source) and keeps going.  A trailing empty piece is
skipped by the `key == ""` continue, exactly as the cut-loop of the source
terminates on an empty remainder. -/
def parseQueryPieces : List GoStr → Values → Option QErr → Values × Option QErr
  | [], m, err => (m, err)
  | key :: rest, m, err =>
    if key.contains 59 then parseQueryPieces rest m (some .semicolon)
    else if key = [] then parseQueryPieces rest m err
    else
      let c2 := cut key 61
      match queryUnescape c2.1 with
      | .error _ => parseQueryPieces rest m (if err = none then some .parseErr else err)
      | .ok k =>
        match queryUnescape c2.2.1 with
        | .error _ => parseQueryPieces rest m (if err = none then some .parseErr else err)
        | .ok v => parseQueryPieces rest (Values.add m k v) err

/-- net/url `ParseQuery`. -/
def ParseQuery (query : GoStr) : Values × Option QErr :=
  parseQueryPieces (splitOnByte query 38) [] none

/-- The URL record of net/url (the `User` field is validated during parsing
but its value, unused by packageurl-go, is not stored). -/
structure URL where
  Scheme : GoStr := []
  Opaque : GoStr := []
  Host : GoStr := []
  Path : GoStr := []
  RawPath : GoStr := []
  OmitHost : Bool := false
  ForceQuery : Bool := false
  RawQuery : GoStr := []
  Fragment : GoStr := []
  RawFragment : GoStr := []
deriving DecidableEq

/-- The scan loop of net/url `getScheme`; `orig` is the full input returned
by the no-scheme exits, `acc` the bytes scanned so far. -/
def getSchemeLoop (orig acc : GoStr) : GoStr → Except Unit (GoStr × GoStr)
  | [] => .ok ([], orig)
  | c :: rest =>
    if isAlphaB c then getSchemeLoop orig (acc ++ [c]) rest
    else if isDigitB c ∨ c = 43 ∨ c = 45 ∨ c = 46 then
      if acc = [] then .ok ([], orig) else getSchemeLoop orig (acc ++ [c]) rest
    else if c = 58 then
      if acc = [] then .error () else .ok (acc, rest)
    else .ok ([], orig)

/-- net/url `getScheme`. -/
def getScheme (rawURL : GoStr) : Except Unit (GoStr × GoStr) :=
  getSchemeLoop rawURL [] rawURL

/-- net/url `stringContainsCTLByte`. -/
def containsCTLByte (s : GoStr) : Bool :=
  s.any fun b => b < 32 ∨ b = 127

/-- net/url `validOptionalPort`. -/
def validOptionalPort (port : GoStr) : Bool :=
  match port with
  | [] => true
  | 58 :: digits => digits.all fun b => 48 ≤ b ∧ b ≤ 57
  | _ => false

/-- net/url `validUserinfo`. -/
def validUserinfo (s : GoStr) : Bool :=
  s.all fun b =>
    (65 ≤ b ∧ b ≤ 90) ∨ (97 ≤ b ∧ b ≤ 122) ∨ (48 ≤ b ∧ b ≤ 57) ∨
    b ∈ [45, 46, 95, 58, 126, 33, 36, 38, 39, 40, 41, 42, 43, 44, 59, 61, 37, 64]

/-- net/url `validEncoded`. -/
def validEncoded (s : GoStr) (mode : Encoding) : Bool :=
  s.all fun b =>
    if b ∈ [33, 36, 38, 39, 40, 41, 42, 43, 44, 59, 61, 58, 64] then true
    else if b = 91 ∨ b = 93 then true
    else if b = 37 then true
    else ¬ shouldEscape b mode

/-- net/url `parseHost` (zone/port validation and host unescaping; the
returned value is the decoded host). -/
def parseHost (host : GoStr) : Except Unit GoStr :=
  if hasPrefix host (gs "[") then
    match lastIndexByte host 93 with
    | none => .error ()
    | some i =>
      if ¬ validOptionalPort (host.drop (i + 1)) then .error ()
      else
        match indexSeq (host.take i) (gs "%25") with
        | some zone =>
          match unescape (host.take zone) .host with
          | .error _ => .error ()
          | .ok host1 =>
            match unescape ((host.take i).drop zone) .zone with
            | .error _ => .error ()
            | .ok host2 =>
              match unescape (host.drop i) .host with
              | .error _ => .error ()
              | .ok host3 => .ok (host1 ++ host2 ++ host3)
        | none => unescape host .host
  else
    match lastIndexByte host 58 with
    | some i =>
      if ¬ validOptionalPort (host.drop i) then .error ()
      else unescape host .host
    | none => unescape host .host

/-- net/url `parseAuthority`; the userinfo is validated and decoded exactly
as in the source, but only the host is returned. -/
def parseAuthority (authority : GoStr) : Except Unit GoStr :=
  match lastIndexByte authority 64 with
  | none => parseHost authority
  | some i =>
    match parseHost (authority.drop (i + 1)) with
    | .error e => .error e
    | .ok host =>
      let userinfo := authority.take i
      if ¬ validUserinfo userinfo then .error ()
      else if ¬ userinfo.contains 58 then
        match unescape userinfo .userPassword with
        | .error e => .error e
        | .ok _ => .ok host
      else
        let c := cut userinfo 58
        match unescape c.1 .userPassword with
        | .error e => .error e
        | .ok _ =>
          match unescape c.2.1 .userPassword with
          | .error e => .error e
          | .ok _ => .ok host

/-- net/url `URL.setPath`, as a function returning the new `(Path, RawPath)`
or an unescape error. -/
def setPathFn (p : GoStr) : Option (GoStr × GoStr) :=
  match unescape p .path with
  | .error _ => none
  | .ok decoded => some (decoded, if escape decoded .path = p then [] else p)

/-- net/url `URL.setFragment`, returning `(Fragment, RawFragment)`. -/
def setFragmentFn (f : GoStr) : Option (GoStr × GoStr) :=
  match unescape f .fragment with
  | .error _ => none
  | .ok frag => some (frag, if escape frag .fragment = f then [] else f)

/-- Helper for `EscapedPath`/`EscapedFragment`: does the raw form decode to
the given decoded form. -/
def decodesTo (raw : GoStr) (mode : Encoding) (decoded : GoStr) : Bool :=
  match unescape raw mode with
  | .ok d => d = decoded
  | .error _ => false

/-- net/url `URL.EscapedPath`. -/
def escapedPathFn (path rawPath : GoStr) : GoStr :=
  if rawPath ≠ [] ∧ validEncoded rawPath .path ∧ decodesTo rawPath .path path then
    rawPath
  else if path = gs "*" then gs "*"
  else escape path .path

/-- net/url `URL.EscapedFragment`. -/
def escapedFragmentFn (fragment rawFragment : GoStr) : GoStr :=
  if rawFragment ≠ [] ∧ validEncoded rawFragment .fragment ∧
      decodesTo rawFragment .fragment fragment then
    rawFragment
  else escape fragment .fragment

/-- The `split` of net/url (first occurrence, separator cut off). -/
def urlSplit (s : GoStr) (sep : Nat) : GoStr × GoStr :=
  match indexByte s sep with
  | none => (s, [])
  | some i => (s.take i, s.drop (i + 1))

/-- The tail of net/url `parse` after the scheme and query have been split
off: authority detection, then `setPath` (the `viaRequest` flag of the
source is `false` for `url.Parse`). -/
def parseTail (scheme rawQuery : GoStr) (forceQuery : Bool) (rest : GoStr) :
    Except Unit URL :=
  if (scheme ≠ [] ∨ ¬ hasPrefix rest (gs "///")) ∧ hasPrefix rest (gs "//") then
    let authority0 := rest.drop 2
    let ar :=
      match indexByte authority0 47 with
      | some i => (authority0.take i, authority0.drop i)
      | none => (authority0, ([] : GoStr))
    match parseAuthority ar.1 with
    | .error e => .error e
    | .ok host =>
      match setPathFn ar.2 with
      | none => .error ()
      | some pr =>
        .ok { Scheme := scheme, Host := host, Path := pr.1, RawPath := pr.2,
              RawQuery := rawQuery, ForceQuery := forceQuery }
  else
    let omitHost := scheme ≠ [] ∧ hasPrefix rest (gs "/")
    match setPathFn rest with
    | none => .error ()
    | some pr =>
      .ok { Scheme := scheme, Path := pr.1, RawPath := pr.2, OmitHost := omitHost,
            RawQuery := rawQuery, ForceQuery := forceQuery }

/-- The `parse` of net/url with `viaRequest = false`. -/
def parseInner (rawURL : GoStr) : Except Unit URL :=
  if containsCTLByte rawURL then .error ()
  else if rawURL = gs "*" then .ok { Path := gs "*" }
  else
    match getScheme rawURL with
    | .error e => .error e
    | .ok sr =>
      let scheme := toLowerStr sr.1
      let rest0 := sr.2
      let rqf :=
        if hasSuffix rest0 (gs "?") ∧ ¬ (rest0.dropLast.contains 63) then
          (rest0.dropLast, ([] : GoStr), true)
        else
          let s := urlSplit rest0 63
          (s.1, s.2, false)
      let rest := rqf.1
      let rawQuery := rqf.2.1
      let forceQuery := rqf.2.2
      if ¬ hasPrefix rest (gs "/") then
        if scheme ≠ [] then
          .ok { Scheme := scheme, Opaque := rest, RawQuery := rawQuery,
                ForceQuery := forceQuery }
        else
          if (cut rest 47).1.contains 58 then .error ()
          else parseTail scheme rawQuery forceQuery rest
      else parseTail scheme rawQuery forceQuery rest

/-- net/url `Parse`: fragment split off first, then `parse`, then
`setFragment`. -/
def urlParse (rawURL : GoStr) : Except Unit URL :=
  let sf := urlSplit rawURL 35
  match parseInner sf.1 with
  | .error e => .error e
  | .ok url =>
    if sf.2 = [] then .ok url
    else
      match setFragmentFn sf.2 with
      | none => .error ()
      | some fr => .ok { url with Fragment := fr.1, RawFragment := fr.2 }

/-- The backtracking loop of `path.Clean` for a `..` element: starting from
the write cursor `w`, move left while above `dotdot` and the byte at the
cursor is not a slash (structural recursion on the cursor). -/
def popLoop (out : GoStr) (dotdot : Nat) : Nat → Nat
  | 0 => 0
  | w + 1 =>
    if w + 1 > dotdot ∧ out.getD (w + 1) 0 ≠ 47 then popLoop out dotdot w else w + 1

/-- Output truncation of `path.Clean` on a `..` element (after the `out.w--`
of the source the loop above runs, and the kept prefix is everything below
the final cursor). -/
def popSegment (out : GoStr) (dotdot : Nat) : GoStr :=
  out.take (popLoop out dotdot (out.length - 1))

/-- The reading loop of `path.Clean` expressed over the `/`-separated
elements of the path: the byte-wise loop of the source skips separators and
`.` elements, backtracks on `..` elements, and otherwise copies a maximal
slash-free run, which is exactly a traversal of these pieces. -/
def cleanSegs (rooted : Bool) : List GoStr → GoStr → Nat → GoStr
  | [], out, _ => out
  | seg :: rest, out, dotdot =>
    if seg = [] then cleanSegs rooted rest out dotdot
    else if seg = [46] then cleanSegs rooted rest out dotdot
    else if seg = [46, 46] then
      if out.length > dotdot then
        cleanSegs rooted rest (popSegment out dotdot) dotdot
      else if ¬ rooted then
        let out2 := (if out.length > 0 then out ++ [47] else out) ++ [46, 46]
        cleanSegs rooted rest out2 out2.length
      else cleanSegs rooted rest out dotdot
    else
      let out2 :=
        (if (rooted ∧ out.length ≠ 1) ∨ (¬ rooted ∧ out.length ≠ 0)
         then out ++ [47] else out) ++ seg
      cleanSegs rooted rest out2 dotdot

/-- `path.Clean`. -/
def pathClean (p : GoStr) : GoStr :=
  if p = [] then gs "."
  else
    let rooted := p.head? = some 47
    let out :=
      if rooted then cleanSegs true (splitOnByte (p.drop 1) 47) [47] 1
      else cleanSegs false (splitOnByte p 47) [] 0
    if out.length = 0 then gs "." else out

/-- `path.Join`: non-empty elements joined by `/`, then cleaned. -/
def pathJoin (elems : List GoStr) : GoStr :=
  if (elems.map List.length).sum = 0 then []
  else
    let buf := elems.foldl
      (fun buf e =>
        if buf.length > 0 ∨ e ≠ [] then
          (if buf.length > 0 then buf ++ [47] else buf) ++ e
        else buf)
      []
    pathClean buf

/-- net/url `URL.JoinPath` on the URL built by `ToString` (whose path is
empty, so the escaped base path is `""`, which is made `"/"` and the join
result stripped of it).  Returns the resulting `(Path, RawPath)`; a
`setPath` error is ignored, leaving both empty, as in the source. -/
def joinPathEmptyBase (elems : List GoStr) : GoStr × GoStr :=
  let p0 := (pathJoin ([47] :: elems)).drop 1
  let lastE := elems.getLastD []
  let p := if hasSuffix lastE [47] ∧ ¬ hasSuffix p0 [47] then p0 ++ [47] else p0
  match setPathFn p with
  | none => ([], [])
  | some pr => pr

/-! ## src/packageurl.go: the purl codec itself -/

/-- Known purl type `alpm`. -/
def TypeAlpm : GoStr := gs "alpm"

/-- Known purl type `apk`. -/
def TypeApk : GoStr := gs "apk"

/-- Known purl type `bitbucket`. -/
def TypeBitbucket : GoStr := gs "bitbucket"

/-- Known purl type `composer`. -/
def TypeComposer : GoStr := gs "composer"

/-- Known purl type `conan`. -/
def TypeConan : GoStr := gs "conan"

/-- Known purl type `cran`. -/
def TypeCran : GoStr := gs "cran"

/-- Known purl type `deb`. -/
def TypeDebian : GoStr := gs "deb"

/-- Known purl type `github`. -/
def TypeGithub : GoStr := gs "github"

/-- Known purl type `golang`. -/
def TypeGolang : GoStr := gs "golang"

/-- Known purl type `huggingface`. -/
def TypeHuggingface : GoStr := gs "huggingface"

/-- Known purl type `mlflow`. -/
def TypeMLFlow : GoStr := gs "mlflow"

/-- Known purl type `npm`. -/
def TypeNPM : GoStr := gs "npm"

/-- Known purl type `pypi`. -/
def TypePyPi : GoStr := gs "pypi"

/-- Known purl type `qpkg`. -/
def TypeQpkg : GoStr := gs "qpkg"

/-- Known purl type `rpm`. -/
def TypeRPM : GoStr := gs "rpm"

/-- Known purl type `swift`. -/
def TypeSwift : GoStr := gs "swift"

/-- The `PackageURL` record. -/
structure PackageURL where
  Type_ : GoStr
  Namespace : GoStr
  Name : GoStr
  Version : GoStr
  Qualifiers : Values
  Subpath : GoStr
deriving DecidableEq

/-- `validQualifierKey`: whole-string match of the anchored pattern
`[A-Za-z\.\-_][0-9A-Za-z\.\-_]*` (first byte a letter, dot, dash or
underscore; remaining bytes may also be digits). -/
def validQualifierKey (key : GoStr) : Bool :=
  match key with
  | [] => false
  | c :: rest =>
    (isAlphaB c ∨ c = 46 ∨ c = 45 ∨ c = 95) ∧
    rest.all fun b => isDigitB b ∨ isAlphaB b ∨ b = 46 ∨ b = 45 ∨ b = 95

/-- Errors of the purl parser (payloads are not modelled, only which
`return` produced the error). -/
inductive PErr where
  | urlParse
  | invalidScheme
  | missingTypeOrName
  | invalidQualifiers (e : QErr)
  | unescapeNamespace
  | unescapeVersion
  | unescapeName
  | missingName
  | conanChannelEmpty
  | conanChannelMissing
  | conanNamespaceRequired
  | swiftNamespaceRequired
  | swiftVersionRequired
  | cranVersionRequired
deriving DecidableEq

/-- Result of an operation that can also panic at runtime. -/
inductive QRes where
  | ok (v : Values)
  | err (e : QErr)
  | panicked
deriving DecidableEq

/-- The normalization loop of `getQualifiers` over the parsed map: iterates
the keys (in entry order; the Go source iterates a map in unspecified order,
and every instance evaluated in this file is order-independent), validating
each key and lower-casing the key and the first byte of its first value.
Slicing `v[:1]` of an empty first value is a runtime panic. -/
def getQualifiersLoop : List GoStr → Values → QRes
  | [], qs => .ok qs
  | k :: rest, qs =>
    if ¬ validQualifierKey k then .err .invalidKey
    else
      match Values.get qs k with
      | [] => .panicked
      | b :: bs =>
        let normalisedValue := toLowerByte b :: bs
        let normalisedKey := toLowerStr k
        if normalisedKey ≠ k then
          getQualifiersLoop rest (Values.set (Values.del qs k) normalisedKey normalisedValue)
        else if normalisedValue ≠ b :: bs then
          getQualifiersLoop rest (Values.set qs k normalisedValue)
        else getQualifiersLoop rest qs

/-- `getQualifiers` of src/packageurl.go. -/
def getQualifiers (rawQuery : GoStr) : QRes :=
  let pq := ParseQuery rawQuery
  match pq.2 with
  | some _ => .err .parseErr
  | none => getQualifiersLoop (pq.1.map Prod.fst) pq.1

/-- `separateNamespaceNameVersion` of src/packageurl.go: namespace is
everything before the last `/` (decoded as one string), the rest is split
at the last `@` into name and version, each decoded; an empty decoded name
is an error. -/
def separateNamespaceNameVersion (path : GoStr) :
    Except PErr (GoStr × GoStr × GoStr) :=
  let nsSplit :=
    match lastIndexByte path 47 with
    | some i => some (path.take i, path.drop (i + 1))
    | none => none
  match nsSplit with
  | some nn =>
    match pathUnescape nn.1 with
    | .error _ => .error .unescapeNamespace
    | .ok ns => separateNameVersion ns nn.2
  | none => separateNameVersion [] path
where
  /-- Split `name@version` at the last `@` and decode both parts. -/
  separateNameVersion (ns name0 : GoStr) : Except PErr (GoStr × GoStr × GoStr) :=
    let nv :=
      match lastIndexByte name0 64 with
      | some j => (name0.take j, some (name0.drop (j + 1)))
      | none => (name0, none)
    match nv.2 with
    | some rawVersion =>
      match pathUnescape rawVersion with
      | .error _ => .error .unescapeVersion
      | .ok version => finishName ns nv.1 version
    | none => finishName ns nv.1 []
  /-- Decode the name and reject an empty result. -/
  finishName (ns rawName version : GoStr) : Except PErr (GoStr × GoStr × GoStr) :=
    match pathUnescape rawName with
    | .error _ => .error .unescapeName
    | .ok name =>
      if name = [] then .error .missingName
      else .ok (ns, name, version)

/-- `typeAdjustNamespace` of src/packageurl.go. -/
def typeAdjustNamespace (purlType ns : GoStr) : GoStr :=
  if purlType = TypeAlpm ∨ purlType = TypeApk ∨ purlType = TypeBitbucket ∨
      purlType = TypeComposer ∨ purlType = TypeDebian ∨ purlType = TypeGithub ∨
      purlType = TypeGolang ∨ purlType = TypeNPM ∨ purlType = TypeRPM ∨
      purlType = TypeQpkg then
    toLowerStr ns
  else ns

/-- `adjustMlflowName` of src/packageurl.go. -/
def adjustMlflowName (name : GoStr) (qualifiers : Values) : GoStr :=
  let v := Values.get qualifiers (gs "repository_url")
  if v = [] then name
  else if containsSeq v (gs "azureml") then name
  else if containsSeq v (gs "databricks") then toLowerStr name
  else name

/-- `typeAdjustName` of src/packageurl.go. -/
def typeAdjustName (purlType name : GoStr) (qualifiers : Values) : GoStr :=
  if purlType = TypeAlpm ∨ purlType = TypeApk ∨ purlType = TypeBitbucket ∨
      purlType = TypeComposer ∨ purlType = TypeDebian ∨ purlType = TypeGithub ∨
      purlType = TypeGolang ∨ purlType = TypeNPM then
    toLowerStr name
  else if purlType = TypePyPi then
    toLowerStr (name.map fun b => if b = 95 then 45 else b)
  else if purlType = TypeMLFlow then adjustMlflowName name qualifiers
  else name

/-- `typeAdjustVersion` of src/packageurl.go. -/
def typeAdjustVersion (purlType version : GoStr) : GoStr :=
  if purlType = TypeHuggingface then toLowerStr version else version

/-- `validCustomRules` of src/packageurl.go (per-type structural rules;
`none` is the nil error). -/
def validCustomRules (p : PackageURL) : Option PErr :=
  let q := p.Qualifiers
  if p.Type_ = TypeConan then
    if p.Namespace ≠ [] ∧ Values.has q (gs "channel") then
      if Values.get q (gs "channel") = [] then some .conanChannelEmpty else none
    else if p.Namespace ≠ [] ∧ ¬ Values.has q (gs "channel") then
      some .conanChannelMissing
    else if p.Namespace = [] ∧ Values.has q (gs "channel") then
      if Values.get q (gs "channel") ≠ [] then some .conanNamespaceRequired else none
    else none
  else if p.Type_ = TypeSwift then
    if p.Namespace = [] then some .swiftNamespaceRequired
    else if p.Version = [] then some .swiftVersionRequired
    else none
  else if p.Type_ = TypeCran then
    if p.Version = [] then some .cranVersionRequired else none
  else none

/-- Result of `FromString` (a record, an error, or a runtime panic). -/
inductive Res where
  | ok (p : PackageURL)
  | err (e : PErr)
  | panicked
deriving DecidableEq

/-- `FromString` of src/packageurl.go. -/
def FromString (purl : GoStr) : Res :=
  match urlParse purl with
  | .error _ => .err .urlParse
  | .ok u =>
    if u.Scheme ≠ gs "pkg" then .err .invalidScheme
    else
      let p0 := u.Opaque
      let p := if p0 = [] then trimPrefix (pathJoin [u.Host, u.Path]) (gs "/") else p0
      let c := cut p 47
      if ¬ c.2.2 then .err .missingTypeOrName
      else
        let typ := toLowerStr c.1
        match getQualifiers u.RawQuery with
        | .panicked => .panicked
        | .err e => .err (.invalidQualifiers e)
        | .ok qualifiers =>
          match separateNamespaceNameVersion c.2.1 with
          | .error e => .err e
          | .ok nnv =>
            let pURL : PackageURL := {
              Type_ := typ
              Namespace := typeAdjustNamespace typ nnv.1
              Name := typeAdjustName typ nnv.2.1 qualifiers
              Version := typeAdjustVersion typ nnv.2.2
              Qualifiers := qualifiers
              Subpath := trimChar u.Fragment 47 }
            match validCustomRules pURL with
            | some e => .err e
            | none => .ok pURL

/-- `ToString` of src/packageurl.go: build a URL with the encoded
qualifiers as query and the subpath as fragment, join
type/namespace/name@version into its path, move the escaped path into the
opaque part and render.  `urlStringRender` below is `URL.String`
specialized to the URLs built here (scheme `pkg`, no host, no user, path
cleared). -/
def urlStringRender (opq rawQuery fragment : GoStr) : GoStr :=
  gs "pkg:" ++ opq ++
  (if rawQuery ≠ [] then 63 :: rawQuery else []) ++
  (if fragment ≠ [] then 35 :: escape fragment .fragment else [])

/-- `ToString` of src/packageurl.go. -/
def ToString (p : PackageURL) : GoStr :=
  let rawQuery := Values.Encode p.Qualifiers
  let nameWithVersion :=
    pathEscape p.Name ++ (if p.Version ≠ [] then 64 :: p.Version else [])
  let pr := joinPathEmptyBase [p.Type_, p.Namespace, nameWithVersion]
  let opq := escapedPathFn pr.1 pr.2
  urlStringRender opq rawQuery p.Subpath

end PurlGo

namespace Part000

/-!
## src/unnamed/part_000: the historical ordered-qualifier variant

Only the declarations this file's properties refer to are embedded: the
ordered `Qualifier`/`Qualifiers` representation, its map conversions and
query rendering, and its `parseQualifiers`.
-/

open PurlGo

/-- The `Qualifier` record of the ordered variant. -/
structure Qualifier where
  Key : GoStr
  Value : GoStr
deriving DecidableEq

/-- The `Qualifiers` slice of the ordered variant. -/
abbrev Qualifiers := List Qualifier

/-- A Go `map[string]string`, modelled as an association list built by
`mapSet` (so keys are unique). -/
abbrev GoMap := List (GoStr × GoStr)

/-- Go map assignment `m[k] = v`: replace the value of an existing key in
place, or add a new entry. -/
def mapSet (m : GoMap) (k v : GoStr) : GoMap :=
  if (m.lookup k).isSome then
    m.map fun kv => if kv.1 = k then (k, v) else kv
  else m ++ [(k, v)]

/-- Insertion into a list of qualifiers sorted by key (helper modelling
`sort.Slice(q, func(i, j int) bool { return q[i].Key < q[j].Key })`; on the
duplicate-free key sets produced by iterating a Go map the sorted result is
unique, so insertion sort is a faithful model). -/
def insertQual (x : Qualifier) : Qualifiers → Qualifiers
  | [] => [x]
  | y :: ys => if lexLt y.Key x.Key then y :: insertQual x ys else x :: y :: ys

/-- Sorting a qualifier slice by key. -/
def sortQualifiers : Qualifiers → Qualifiers
  | [] => []
  | x :: xs => insertQual x (sortQualifiers xs)

/-- `QualifiersFromMap` of part_000: collect the map entries (iteration
modelled in list order) and sort them by key for a deterministic order. -/
def QualifiersFromMap (mm : GoMap) : Qualifiers :=
  sortQualifiers (mm.map fun kv => ⟨kv.1, kv.2⟩)

/-- `Qualifiers.Map` of part_000: fold the ordered pairs into a map. -/
def Qualifiers.Map (qq : Qualifiers) : GoMap :=
  qq.foldl (fun m q => mapSet m q.Key q.Value) []

/-- `Qualifiers.urlQuery` of part_000: add every pair to a `url.Values` and
encode it. -/
def Qualifiers.urlQuery (q : Qualifiers) : GoStr :=
  Values.Encode (q.foldl (fun v qq => Values.add v qq.Key qq.Value) [])

/-- Result of `parseQualifiers` of part_000. -/
inductive PQRes where
  | ok (q : Qualifiers)
  | err (e : QErr)
  | panicked
deriving DecidableEq

/-- The loop of `parseQualifiers` of part_000 over the `&`-separated
pieces: reject semicolons and invalid keys, decode key and value,
lower-case the key and the first byte of the value.  Slicing `value[:1]` of
an empty value is a runtime panic. -/
def parseQualifiersLoop : List GoStr → Qualifiers → PQRes
  | [], q => .ok q
  | key0 :: rest, q =>
    if key0.contains 59 then .err .semicolon
    else if key0 = [] then parseQualifiersLoop rest q
    else
      let kv := cut key0 61
      match queryUnescape kv.1 with
      | .error _ => .err .unescapeKey
      | .ok key =>
        if ¬ validQualifierKey key then .err .invalidKey
        else
          match queryUnescape kv.2.1 with
          | .error _ => .err .unescapeValue
          | .ok value =>
            match value with
            | [] => .panicked
            | b :: bs =>
              parseQualifiersLoop rest (q ++ [⟨toLowerStr key, toLowerByte b :: bs⟩])

/-- `parseQualifiers` of part_000. -/
def parseQualifiers (rawQuery : GoStr) : PQRes :=
  parseQualifiersLoop (splitOnByte rawQuery 38) []

end Part000

namespace PurlGo

/-!
## Specification-side definitions

These definitions restate property texts of the specification in Lean, for
comparison against the embedded source functions above.
-/

/-- The per-type structural rules in the words of the specification: for
conan, a non-empty namespace requires a present, non-empty `channel`
qualifier, and an empty namespace requires any present `channel` qualifier
to be empty; for swift, namespace and version must both be non-empty; for
cran, the version must be non-empty; every other type has no extra rule. -/
def StructuralRulesHold (p : PackageURL) : Prop :=
  (p.Type_ = TypeConan →
    (p.Namespace ≠ [] →
      Values.has p.Qualifiers (gs "channel") ∧ Values.get p.Qualifiers (gs "channel") ≠ []) ∧
    (p.Namespace = [] →
      Values.has p.Qualifiers (gs "channel") → Values.get p.Qualifiers (gs "channel") = [])) ∧
  (p.Type_ = TypeSwift → p.Namespace ≠ [] ∧ p.Version ≠ []) ∧
  (p.Type_ = TypeCran → p.Version ≠ [])

end PurlGo

namespace PurlGo

/-! ## Properties of the lexicographic byte order -/

/-- Irreflexivity of `lexLt`. -/
theorem lexLt_irrefl : ∀ a : GoStr, lexLt a a = false
  | [] => rfl
  | x :: xs => by simp [lexLt, lexLt_irrefl xs]

/-- Asymmetry of `lexLt`. -/
theorem lexLt_asymm : ∀ {a b : GoStr}, lexLt a b = true → lexLt b a = false
  | [], [], h => by simp [lexLt] at h
  | [], _ :: _, _ => rfl
  | _ :: _, [], h => by simp [lexLt] at h
  | x :: xs, y :: ys, h => by
    simp only [lexLt] at h ⊢
    rcases Nat.lt_trichotomy x y with hxy | hxy | hxy
    · rw [if_neg (Nat.lt_asymm hxy), if_pos hxy]
    · subst hxy
      simp only [Nat.lt_irrefl, if_false] at h ⊢
      exact lexLt_asymm h
    · rw [if_neg (Nat.lt_asymm hxy), if_pos hxy] at h
      exact absurd h (by simp)

/-- Totality of `lexLt`: incomparable strings are equal. -/
theorem lexLt_eq_of_not_lt : ∀ {a b : GoStr},
    lexLt a b = false → lexLt b a = false → a = b
  | [], [], _, _ => rfl
  | [], _ :: _, h, _ => by simp [lexLt] at h
  | _ :: _, [], _, h => by simp [lexLt] at h
  | x :: xs, y :: ys, h1, h2 => by
    simp only [lexLt] at h1 h2
    rcases Nat.lt_trichotomy x y with hxy | hxy | hxy
    · simp [hxy] at h1
    · subst hxy
      simp only [Nat.lt_irrefl, if_false] at h1 h2
      rw [lexLt_eq_of_not_lt h1 h2]
    · simp [hxy, Nat.lt_asymm hxy] at h2

/-- Transitivity of the non-strict order `¬ lexLt b a` (that is, `a ≤ b`). -/
theorem lexLe_trans : ∀ {a b c : GoStr},
    lexLt b a = false → lexLt c b = false → lexLt c a = false := by
  intro a
  induction a with
  | nil =>
    intro b c _ _
    cases c <;> rfl
  | cons x xs ih =>
    intro b c h1 h2
    cases b with
    | nil => simp [lexLt] at h1
    | cons y ys =>
      cases c with
      | nil => simp [lexLt] at h2
      | cons z zs =>
        simp only [lexLt] at h1 h2 ⊢
        rcases Nat.lt_trichotomy y x with hyx | hyx | hyx
        · rw [if_pos hyx] at h1
          exact absurd h1 (by simp)
        · subst hyx
          simp only [Nat.lt_irrefl, if_false] at h1
          rcases Nat.lt_trichotomy z y with hzy | hzy | hzy
          · rw [if_pos hzy] at h2
            exact absurd h2 (by simp)
          · subst hzy
            simp only [Nat.lt_irrefl, if_false] at h2 ⊢
            exact ih h1 h2
          · rw [if_neg (by omega), if_pos (by omega)]
        · rcases Nat.lt_trichotomy z y with hzy | hzy | hzy
          · rw [if_pos hzy] at h2
            exact absurd h2 (by simp)
          · subst hzy
            rw [if_neg (by omega), if_pos (by omega)]
          · rw [if_neg (by omega), if_pos (by omega)]

/-! ## Canonical character sets and basic string lemmas -/

/-- RFC-unreserved bytes (letters, digits, `-`, `.`, `_`, `~`): the bytes
that no escaping mode of net/url touches. -/
def unsByte (b : Nat) : Bool :=
  (97 ≤ b ∧ b ≤ 122) ∨ (65 ≤ b ∧ b ≤ 90) ∨ (48 ≤ b ∧ b ≤ 57) ∨
  b = 45 ∨ b = 46 ∨ b = 95 ∨ b = 126

/-- A string of unreserved bytes. -/
def unsStr (s : GoStr) : Bool := s.all unsByte

/-- Structural facts about unreserved bytes. -/
theorem unsByte_facts {b : Nat} (h : unsByte b = true) :
    b ≠ 37 ∧ b ≠ 43 ∧ b ≠ 47 ∧ b ≠ 64 ∧ b ≠ 63 ∧ b ≠ 35 ∧ b ≠ 38 ∧
    b ≠ 61 ∧ b ≠ 59 ∧ b ≠ 58 ∧ b ≠ 42 ∧ 32 < b ∧ b ≠ 127 := by
  simp only [unsByte, Bool.or_eq_true, decide_eq_true_eq] at h
  omega

/-- Unreserved bytes are never escaped, in any mode. -/
theorem shouldEscape_uns {b : Nat} (mode : Encoding) (h : unsByte b = true) :
    shouldEscape b mode = false := by
  simp only [unsByte, Bool.or_eq_true, decide_eq_true_eq] at h
  unfold shouldEscape
  rcases h with h | h | h | h | h | h | h
  · rw [if_pos (by omega)]
  · rw [if_pos (by omega)]
  · rw [if_pos (by omega)]
  all_goals
    subst h
    rw [if_neg (by omega), if_neg (by simp), if_pos (by simp)]

/-- Escaping a string with no byte to escape is the identity. -/
theorem escape_eq_self {mode : Encoding} : ∀ {s : GoStr},
    (∀ b ∈ s, shouldEscape b mode = false) → escape s mode = s
  | [], _ => rfl
  | b :: rest, h => by
    have hb := h b (List.mem_cons_self b rest)
    have hrest : escape rest mode = rest :=
      escape_eq_self fun x hx => h x (List.mem_cons_of_mem b hx)
    have hb32 : ¬(b = 32 ∧ mode = .queryComponent) := by
      rintro ⟨rfl, rfl⟩
      simp [shouldEscape] at hb
    simp only [escape, List.map_cons, List.flatten_cons] at *
    rw [if_neg hb32, if_neg (by simp [hb])]
    simpa [escape] using hrest

/-- Unescaping a string with no `%` (and no query-significant `+`) is the
identity, outside the host modes. -/
theorem unescape_eq_self {mode : Encoding} (hmh : mode ≠ .host) (hmz : mode ≠ .zone) :
    ∀ {s : GoStr}, (∀ b ∈ s, b ≠ 37 ∧ ¬(b = 43 ∧ mode = .queryComponent)) →
    unescape s mode = .ok s
  | [], _ => rfl
  | b :: rest, h => by
    have hb := h b (List.mem_cons_self b rest)
    have hrest : unescape rest mode = .ok rest :=
      unescape_eq_self hmh hmz fun x hx => h x (List.mem_cons_of_mem b hx)
    unfold unescape
    rw [if_neg hb.1]
    by_cases hb43 : b = 43
    · subst hb43
      rw [if_pos rfl, hrest]
      have : mode ≠ .queryComponent := fun hc => hb.2 ⟨rfl, hc⟩
      simp [this]
    · rw [if_neg hb43, if_neg (by simp [hmh, hmz]), hrest]

/-- Bytes of an unreserved string survive `queryEscape` unchanged. -/
theorem queryEscape_uns {s : GoStr} (h : unsStr s = true) : queryEscape s = s :=
  escape_eq_self fun b hb =>
    shouldEscape_uns _ (List.all_eq_true.mp h b hb)

/-- Bytes of an unreserved string survive `queryUnescape` unchanged. -/
theorem queryUnescape_uns {s : GoStr} (h : unsStr s = true) : queryUnescape s = .ok s :=
  unescape_eq_self (by simp) (by simp) fun b hb => by
    have := unsByte_facts (List.all_eq_true.mp h b hb)
    exact ⟨this.1, by rintro ⟨rfl, _⟩; exact absurd rfl this.2.1⟩

/-- Unescape is the identity on percent-free, plus-free strings in path
segment mode. -/
theorem pathUnescape_id {s : GoStr} (h : ∀ b ∈ s, b ≠ 37) : pathUnescape s = .ok s :=
  unescape_eq_self (by simp) (by simp) fun b hb => ⟨h b hb, by rintro ⟨_, hc⟩; cases hc⟩

/-- Cut at an absent separator returns the whole string. -/
theorem cut_of_not_mem : ∀ {s : GoStr} {sep : Nat}, sep ∉ s → cut s sep = (s, [], false)
  | [], _, _ => rfl
  | b :: rest, sep, h => by
    have hb : b ≠ sep := fun he => h (he ▸ List.mem_cons_self b rest)
    have hr := cut_of_not_mem (fun hm => h (List.mem_cons_of_mem b hm))
    simp only [cut, if_neg hb, hr]

/-- Cut at the first occurrence of the separator. -/
theorem cut_append : ∀ {a : GoStr} (b : GoStr) {sep : Nat}, sep ∉ a →
    cut (a ++ sep :: b) sep = (a, b, true)
  | [], b, sep, _ => by simp [cut]
  | x :: a, b, sep, h => by
    have hx : x ≠ sep := fun he => h (he ▸ List.mem_cons_self x a)
    have hr := cut_append b (fun hm => h (List.mem_cons_of_mem x hm))
    simp only [List.cons_append, cut, if_neg hx, List.append_eq]
    rw [hr]

/-- Index of an absent byte. -/
theorem indexByte_of_not_mem : ∀ {s : GoStr} {sep : Nat}, sep ∉ s → indexByte s sep = none
  | [], _, _ => rfl
  | b :: rest, sep, h => by
    have hb : b ≠ sep := fun he => h (he ▸ List.mem_cons_self b rest)
    have hr := indexByte_of_not_mem (fun hm => h (List.mem_cons_of_mem b hm))
    simp only [indexByte, if_neg hb]
    rw [hr]
    rfl

/-- Index of the first occurrence of a byte. -/
theorem indexByte_append : ∀ {a : GoStr} (b : GoStr) {sep : Nat}, sep ∉ a →
    indexByte (a ++ sep :: b) sep = some a.length
  | [], b, sep, _ => by simp [indexByte]
  | x :: a, b, sep, h => by
    have hx : x ≠ sep := fun he => h (he ▸ List.mem_cons_self x a)
    have hr := indexByte_append b (fun hm => h (List.mem_cons_of_mem x hm))
    simp only [List.cons_append, indexByte, if_neg hx, List.append_eq]
    rw [hr]
    rfl

/-- Split at an absent byte. -/
theorem urlSplit_of_not_mem {s : GoStr} {sep : Nat} (h : sep ∉ s) :
    urlSplit s sep = (s, []) := by
  unfold urlSplit
  rw [indexByte_of_not_mem h]

/-- Split at the first occurrence of a byte. -/
theorem urlSplit_append {a : GoStr} (b : GoStr) {sep : Nat} (h : sep ∉ a) :
    urlSplit (a ++ sep :: b) sep = (a, b) := by
  unfold urlSplit
  rw [indexByte_append b h]
  have h1 : (a ++ sep :: b).take a.length = a := List.take_left a _
  have h2 : (a ++ sep :: b).drop (a.length + 1) = b := by
    have he : a ++ sep :: b = (a ++ [sep]) ++ b := by simp
    rw [he]
    have hl : a.length + 1 = (a ++ [sep]).length := by simp
    rw [hl, List.drop_left]
  dsimp only
  rw [h1, h2]

/-- Last index of an absent byte. -/
theorem lastIndexByte_of_not_mem : ∀ {s : GoStr} {sep : Nat}, sep ∉ s →
    lastIndexByte s sep = none
  | [], _, _ => rfl
  | b :: rest, sep, h => by
    have hb : b ≠ sep := fun he => h (he ▸ List.mem_cons_self b rest)
    have hr := lastIndexByte_of_not_mem (fun hm => h (List.mem_cons_of_mem b hm))
    simp only [lastIndexByte, hr, if_neg hb]

/-- Last index when the byte occurs exactly at the border of a split with a
clean right part. -/
theorem lastIndexByte_append : ∀ (a b : GoStr) {sep : Nat}, sep ∉ b →
    lastIndexByte (a ++ sep :: b) sep = some a.length
  | [], b, sep, h => by
    simp only [List.nil_append, lastIndexByte]
    rw [lastIndexByte_of_not_mem h]
    simp
  | x :: a, b, sep, h => by
    have hr := lastIndexByte_append a b h
    simp only [List.cons_append, lastIndexByte, List.append_eq]
    rw [hr]
    rfl

/-- Splitting on an absent byte keeps the string whole. -/
theorem splitOnByte_of_not_mem : ∀ {s : GoStr} {sep : Nat}, sep ∉ s →
    splitOnByte s sep = [s]
  | [], _, _ => rfl
  | b :: rest, sep, h => by
    have hb : b ≠ sep := fun he => h (he ▸ List.mem_cons_self b rest)
    have hr := splitOnByte_of_not_mem (fun hm => h (List.mem_cons_of_mem b hm))
    simp only [splitOnByte, if_neg hb]
    rw [hr]
    simp

/-- Splitting peels off the first piece at the first separator. -/
theorem splitOnByte_append : ∀ (a b : GoStr) {sep : Nat}, sep ∉ a →
    splitOnByte (a ++ sep :: b) sep = a :: splitOnByte b sep
  | [], b, sep, _ => by simp [splitOnByte]
  | x :: a, b, sep, h => by
    have hx : x ≠ sep := fun he => h (he ▸ List.mem_cons_self x a)
    have hr := splitOnByte_append a b (fun hm => h (List.mem_cons_of_mem x hm))
    simp only [List.cons_append, splitOnByte, if_neg hx, List.append_eq]
    rw [hr]
    simp

/-- The empty list is a prefix of every list (stated for the stuck matcher
of `List.isPrefixOf`). -/
theorem nil_isPrefixOf (l : GoStr) : List.isPrefixOf [] l = true := by
  cases l <;> rfl

/-- One-byte prefix test. -/
theorem hasPrefix_single {s : GoStr} {c : Nat} :
    hasPrefix s [c] = true ↔ s.head? = some c := by
  cases s with
  | nil =>
    constructor
    · intro h
      cases h
    · intro h
      cases h
  | cons b rest =>
    show (List.isPrefixOf [c] (b :: rest)) = true ↔ _
    rw [List.isPrefixOf_cons₂, nil_isPrefixOf, Bool.and_true, List.head?_cons, beq_iff_eq]
    simp only [Option.some.injEq]
    exact eq_comm

/-- One-byte suffix test. -/
theorem hasSuffix_single {s : GoStr} {c : Nat} :
    hasSuffix s [c] = true ↔ s.getLast? = some c := by
  unfold hasSuffix
  rw [show ([c] : GoStr).reverse = [c] from rfl]
  rw [show (([c] : GoStr).isPrefixOf s.reverse) = hasPrefix s.reverse [c] from rfl]
  rw [hasPrefix_single, List.head?_reverse]

/-- Trim is the identity when neither end carries the byte. -/
theorem trimChar_eq_self {s : GoStr} {c : Nat} (h1 : s.head? ≠ some c)
    (h2 : s.getLast? ≠ some c) : trimChar s c = s := by
  unfold trimChar
  have hd : s.dropWhile (· = c) = s := by
    cases s with
    | nil => rfl
    | cons b rest =>
      rw [List.dropWhile_cons, if_neg (by simpa using fun he => h1 (by simp [he]))]
  rw [hd]
  have hd2 : s.reverse.dropWhile (· = c) = s.reverse := by
    cases hsr : s.reverse with
    | nil => rfl
    | cons b rest =>
      rw [List.dropWhile_cons, if_neg ?_]
      have : s.getLast? = some b := by
        rw [← List.head?_reverse, hsr, List.head?_cons]
      simpa using fun he => h2 (by rw [this, he])
  rw [hd2, List.reverse_reverse]

/-- ASCII lower-casing is the identity on strings without upper-case
letters. -/
theorem toLowerStr_eq_self {s : GoStr} (h : ∀ b ∈ s, toLowerByte b = b) :
    toLowerStr s = s := by
  unfold toLowerStr
  rw [List.map_congr_left h]
  simp

/-- A string of bytes at and above the space has no control byte. -/
theorem containsCTLByte_eq_false {s : GoStr} (h : ∀ b ∈ s, 32 ≤ b ∧ b ≠ 127) :
    containsCTLByte s = false := by
  unfold containsCTLByte
  rw [List.any_eq_false]
  intro b hb
  have := h b hb
  simp only [Bool.or_eq_true, decide_eq_true_eq, not_or]
  omega

/-- Index across a clean prefix. -/
theorem indexByte_append_left : ∀ (a s : GoStr) {sep : Nat}, sep ∉ a →
    indexByte (a ++ s) sep = (indexByte s sep).map (· + a.length)
  | [], s, sep, _ => by
    simp only [List.nil_append, List.length_nil]
    cases indexByte s sep with
    | none => rfl
    | some i => simp
  | x :: a, s, sep, h => by
    have hx : x ≠ sep := fun he => h (he ▸ List.mem_cons_self x a)
    have hr := indexByte_append_left a s (fun hm => h (List.mem_cons_of_mem x hm))
    simp only [List.cons_append, indexByte, if_neg hx, List.append_eq]
    rw [hr]
    cases indexByte s sep with
    | none => rfl
    | some i =>
      show some (i + a.length + 1) = some (i + (x :: a).length)
      rw [List.length_cons, Nat.add_assoc]

/-- Split across a clean prefix. -/
theorem urlSplit_append_left (a s : GoStr) {sep : Nat} (h : sep ∉ a) :
    urlSplit (a ++ s) sep = (a ++ (urlSplit s sep).1, (urlSplit s sep).2) := by
  unfold urlSplit
  rw [indexByte_append_left a s h]
  cases hi : indexByte s sep with
  | none => rfl
  | some i =>
    show ((a ++ s).take (i + a.length), (a ++ s).drop (i + a.length + 1)) =
      (a ++ s.take i, s.drop (i + 1))
    rw [show i + a.length = a.length + i by omega, List.take_append,
      show a.length + i + 1 = a.length + (i + 1) by omega, List.drop_append]

/-- Take of the left part around a separator. -/
theorem take_append_cons (a b : GoStr) (sep : Nat) :
    (a ++ sep :: b).take a.length = a := List.take_left a _

/-- Drop of the right part around a separator. -/
theorem drop_append_cons (a b : GoStr) (sep : Nat) :
    (a ++ sep :: b).drop (a.length + 1) = b := by
  have he : a ++ sep :: b = (a ++ [sep]) ++ b := by simp
  rw [he]
  have hl : a.length + 1 = (a ++ [sep]).length := by simp
  rw [hl, List.drop_left]

/-- One scheme-scan step on a letter. -/
theorem getSchemeLoop_alpha (orig acc : GoStr) (c : Nat) (rest : GoStr)
    (h : isAlphaB c = true) :
    getSchemeLoop orig acc (c :: rest) = getSchemeLoop orig (acc ++ [c]) rest := by
  conv_lhs => unfold getSchemeLoop
  rw [if_pos h]

/-- The scheme scan ends at a colon after a non-empty scheme. -/
theorem getSchemeLoop_colon (orig acc : GoStr) (rest : GoStr) (h : acc ≠ []) :
    getSchemeLoop orig acc (58 :: rest) = .ok (acc, rest) := by
  conv_lhs => unfold getSchemeLoop
  rw [if_neg (by decide), if_neg (by decide), if_pos rfl, if_neg h]

/-- A three-letter scheme followed by a colon. -/
theorem getScheme_concrete (p1 p2 p3 : Nat) (X : GoStr)
    (h1 : isAlphaB p1 = true) (h2 : isAlphaB p2 = true) (h3 : isAlphaB p3 = true) :
    getScheme (p1 :: p2 :: p3 :: 58 :: X) = .ok ([p1, p2, p3], X) := by
  unfold getScheme
  rw [getSchemeLoop_alpha _ _ _ _ h1, getSchemeLoop_alpha _ _ _ _ h2,
    getSchemeLoop_alpha _ _ _ _ h3, getSchemeLoop_colon _ _ _ (by simp)]
  simp

/-- The inner parse treats `PKG:` and `pkg:` alike, because the scheme is
lower-cased right after scanning. -/
theorem parseInner_scheme_lower (X : GoStr) :
    parseInner ([80, 75, 71, 58] ++ X) = parseInner ([112, 107, 103, 58] ++ X) := by
  unfold parseInner
  have hctl : containsCTLByte ([80, 75, 71, 58] ++ X) =
      containsCTLByte ([112, 107, 103, 58] ++ X) := by
    unfold containsCTLByte
    rw [List.any_append, List.any_append]
    norm_num
  rw [hctl]
  by_cases hc : containsCTLByte ([112, 107, 103, 58] ++ X) = true
  · rw [if_pos hc, if_pos hc]
  · rw [if_neg hc, if_neg hc]
    have hne1 : ([80, 75, 71, 58] : GoStr) ++ X ≠ gs "*" := by
      intro he
      rw [show gs "*" = [42] from rfl] at he
      simp at he
    have hne2 : ([112, 107, 103, 58] : GoStr) ++ X ≠ gs "*" := by
      intro he
      rw [show gs "*" = [42] from rfl] at he
      simp at he
    rw [if_neg hne1, if_neg hne2]
    rw [show ([80, 75, 71, 58] : GoStr) ++ X = 80 :: 75 :: 71 :: 58 :: X from rfl,
      show ([112, 107, 103, 58] : GoStr) ++ X = 112 :: 107 :: 103 :: 58 :: X from rfl]
    rw [getScheme_concrete 80 75 71 X (by decide) (by decide) (by decide),
      getScheme_concrete 112 107 103 X (by decide) (by decide) (by decide)]
    rfl

/-- The full URL parse treats `PKG:` and `pkg:` alike. -/
theorem urlParse_scheme_lower (rest : GoStr) :
    urlParse (gs "PKG:" ++ rest) = urlParse (gs "pkg:" ++ rest) := by
  unfold urlParse
  rw [show gs "PKG:" = [80, 75, 71, 58] from rfl,
    show gs "pkg:" = [112, 107, 103, 58] from rfl]
  rw [urlSplit_append_left [80, 75, 71, 58] rest (by decide),
    urlSplit_append_left [112, 107, 103, 58] rest (by decide)]
  dsimp only
  rw [parseInner_scheme_lower ((urlSplit rest 35).1)]

/-! ## Sorting lemmas for the ordered qualifier representation -/

/-- Inserting into a sorted qualifier list is a permutation of consing. -/
theorem insertQual_perm (x : Part000.Qualifier) :
    ∀ l : Part000.Qualifiers, (Part000.insertQual x l).Perm (x :: l)
  | [] => List.Perm.refl _
  | y :: ys => by
    unfold Part000.insertQual
    split
    · exact ((insertQual_perm x ys).cons y).trans (List.Perm.swap x y ys)
    · exact List.Perm.refl _

/-- Sorting a qualifier list is a permutation. -/
theorem sortQualifiers_perm : ∀ l : Part000.Qualifiers,
    (Part000.sortQualifiers l).Perm l
  | [] => List.Perm.refl _
  | x :: xs => (insertQual_perm x _).trans ((sortQualifiers_perm xs).cons x)

/-- Insertion preserves sortedness by the non-strict key order. -/
theorem insertQual_pairwise (x : Part000.Qualifier) :
    ∀ l : Part000.Qualifiers,
      l.Pairwise (fun a b => lexLt b.Key a.Key = false) →
      (Part000.insertQual x l).Pairwise (fun a b => lexLt b.Key a.Key = false)
  | [], _ => by simp [Part000.insertQual]
  | y :: ys, h => by
    rw [List.pairwise_cons] at h
    unfold Part000.insertQual
    split
    · rename_i hlt
      rw [List.pairwise_cons]
      refine ⟨fun z hz => ?_, insertQual_pairwise x ys h.2⟩
      have hz' : z ∈ x :: ys := (insertQual_perm x ys).subset hz
      rcases List.mem_cons.mp hz' with rfl | hz2
      · exact lexLt_asymm hlt
      · exact h.1 z hz2
    · rename_i hlt
      rw [Bool.not_eq_true] at hlt
      rw [List.pairwise_cons]
      refine ⟨fun z hz => ?_, List.pairwise_cons.mpr h⟩
      rcases List.mem_cons.mp hz with rfl | hz2
      · exact hlt
      · exact lexLe_trans hlt (h.1 z hz2)

/-- The sorted qualifier list is sorted by the non-strict key order. -/
theorem sortQualifiers_pairwise : ∀ l : Part000.Qualifiers,
    (Part000.sortQualifiers l).Pairwise (fun a b => lexLt b.Key a.Key = false)
  | [] => by simp [Part000.sortQualifiers]
  | x :: xs => insertQual_pairwise x _ (sortQualifiers_pairwise xs)

/-- With duplicate-free keys, non-strict sortedness is strict sortedness. -/
theorem pairwise_strict_of_nodup (l : Part000.Qualifiers)
    (hs : l.Pairwise (fun a b => lexLt b.Key a.Key = false))
    (hn : (l.map Part000.Qualifier.Key).Nodup) :
    l.Pairwise (fun a b => lexLt a.Key b.Key = true) := by
  have hn' : l.Pairwise (fun a b => a.Key ≠ b.Key) := List.pairwise_map.mp hn
  refine (hs.and hn').imp ?_
  rintro a b ⟨h1, h2⟩
  cases hlt : lexLt a.Key b.Key with
  | true => rfl
  | false => exact absurd (lexLt_eq_of_not_lt hlt h1) h2

/-- Two strictly key-sorted permutations of each other are equal. -/
theorem strict_sorted_unique : ∀ {l1 l2 : Part000.Qualifiers}, l1.Perm l2 →
    l1.Pairwise (fun a b => lexLt a.Key b.Key = true) →
    l2.Pairwise (fun a b => lexLt a.Key b.Key = true) → l1 = l2
  | [], l2, hp, _, _ => (hp.symm.eq_nil).symm
  | a :: t1, l2, hp, h1, h2 => by
    cases l2 with
    | nil => exact absurd hp.eq_nil (by simp)
    | cons b t2 =>
      rw [List.pairwise_cons] at h1 h2
      have hab : a = b := by
        have ha : a ∈ b :: t2 := hp.subset (List.mem_cons_self a t1)
        rcases List.mem_cons.mp ha with rfl | ha2
        · rfl
        · have hba : lexLt b.Key a.Key = true := h2.1 a ha2
          have hb : b ∈ a :: t1 := hp.symm.subset (List.mem_cons_self b t2)
          rcases List.mem_cons.mp hb with rfl | hb2
          · exact absurd hba (by simp [lexLt_irrefl])
          · exact absurd hba (by simp [lexLt_asymm (h1.1 b hb2)])
      subst hab
      rw [strict_sorted_unique hp.cons_inv h1.2 h2.2]

/-- Lookup misses keys that are absent. -/
theorem lookup_none_of_not_mem_keys {β : Type} : ∀ {m : List (GoStr × β)} {k : GoStr},
    k ∉ m.map Prod.fst → m.lookup k = none
  | [], _, _ => rfl
  | (k', v') :: t, k, h => by
    simp only [List.map_cons, List.mem_cons, not_or] at h
    have hbeq : (k == k') = false := beq_eq_false_iff_ne.mpr h.1
    simp only [List.lookup, hbeq]
    exact lookup_none_of_not_mem_keys h.2

/-- Lookup skips a clean prefix. -/
theorem lookup_append_of_not_mem_keys {β : Type} :
    ∀ {m : List (GoStr × β)} (rest : List (GoStr × β)) {k : GoStr},
    k ∉ m.map Prod.fst → (m ++ rest).lookup k = rest.lookup k
  | [], rest, k, _ => rfl
  | (k', v') :: t, rest, k, h => by
    simp only [List.map_cons, List.mem_cons, not_or] at h
    have hbeq : (k == k') = false := beq_eq_false_iff_ne.mpr h.1
    simp only [List.cons_append, List.lookup, hbeq]
    exact lookup_append_of_not_mem_keys rest h.2

/-- A successful lookup is a member. -/
theorem mem_of_lookup_eq_some {β : Type} : ∀ {m : List (GoStr × β)} {k : GoStr} {v : β},
    m.lookup k = some v → (k, v) ∈ m
  | [], _, _, h => by cases h
  | (k', v') :: t, k, v, h => by
    by_cases hk : k = k'
    · subst hk
      simp only [List.lookup, beq_self_eq_true] at h
      cases h
      exact List.mem_cons_self _ _
    · have hbeq : (k == k') = false := beq_eq_false_iff_ne.mpr hk
      simp only [List.lookup, hbeq] at h
      exact List.mem_cons_of_mem _ (mem_of_lookup_eq_some h)

/-- With duplicate-free keys, membership determines the lookup. -/
theorem lookup_eq_some_of_mem_nodup {β : Type} :
    ∀ {m : List (GoStr × β)} {k : GoStr} {v : β},
    (m.map Prod.fst).Nodup → (k, v) ∈ m → m.lookup k = some v
  | [], _, _, _, hm => by cases hm
  | (k', v') :: t, k, v, hn, hm => by
    simp only [List.map_cons, List.nodup_cons] at hn
    rcases List.mem_cons.mp hm with he | hm2
    · cases he
      simp [List.lookup]
    · have hk : k ≠ k' := by
        intro he2
        subst he2
        exact hn.1 (List.mem_map_of_mem Prod.fst hm2)
      have hbeq : (k == k') = false := beq_eq_false_iff_ne.mpr hk
      simp only [List.lookup, hbeq]
      exact lookup_eq_some_of_mem_nodup hn.2 hm2

/-- Adding a fresh key appends a new singleton entry. -/
theorem values_add_new {m : Values} {k : GoStr} (v : GoStr)
    (h : k ∉ m.map Prod.fst) : Values.add m k v = m ++ [(k, [v])] := by
  unfold Values.add
  rw [lookup_none_of_not_mem_keys h]
  rfl

/-- Adding to the key of the last entry appends to its values. -/
theorem values_add_found {m : Values} {k : GoStr} (acc : List GoStr) (v : GoStr)
    (h : k ∉ m.map Prod.fst) :
    Values.add (m ++ [(k, acc)]) k v = m ++ [(k, acc ++ [v])] := by
  unfold Values.add
  rw [lookup_append_of_not_mem_keys [(k, acc)] h]
  rw [show (([(k, acc)] : Values).lookup k) = some acc by simp [List.lookup]]
  simp only [Option.isSome_some, if_pos]
  rw [List.map_append]
  congr 1
  · have hm : List.map (fun kv => if kv.1 = k then (kv.1, kv.2 ++ [v]) else kv) m =
        List.map id m := by
      apply List.map_congr_left
      intro kv hkv
      have hne : kv.1 ≠ k := by
        intro he
        exact h (he ▸ List.mem_map_of_mem Prod.fst hkv)
      rw [if_neg hne]
      rfl
    rw [hm, List.map_id]
  · simp

/-- Folding adds of one key over its values builds one entry. -/
theorem foldl_add_same_key : ∀ (vs : List GoStr) (m : Values) (k : GoStr) (acc : List GoStr),
    k ∉ m.map Prod.fst →
    List.foldl (fun m kv => Values.add m kv.1 kv.2) (m ++ [(k, acc)])
      (vs.map fun v => (k, v)) = m ++ [(k, acc ++ vs)]
  | [], m, k, acc, _ => by simp
  | v :: vs, m, k, acc, h => by
    simp only [List.map_cons, List.foldl_cons]
    rw [values_add_found acc v h, foldl_add_same_key vs m k (acc ++ [v]) h]
    simp

/-- Sorting an already strictly sorted key list is the identity. -/
theorem sortStrings_eq_self : ∀ {l : List GoStr},
    l.Pairwise (fun a b => lexLt a b = true) → sortStrings l = l
  | [], _ => rfl
  | x :: xs, h => by
    rw [List.pairwise_cons] at h
    unfold sortStrings
    rw [sortStrings_eq_self h.2]
    cases xs with
    | nil => rfl
    | cons y ys =>
      unfold insertSorted
      rw [if_neg (by simp [lexLt_asymm (h.1 y (List.mem_cons_self y ys))])]

/-- Folding `mapSet` over pairs with fresh, duplicate-free keys appends the
pairs. -/
theorem mapSet_fold : ∀ (l : Part000.Qualifiers) (m : Part000.GoMap),
    (l.map Part000.Qualifier.Key).Nodup →
    (∀ q ∈ l, q.Key ∉ m.map Prod.fst) →
    l.foldl (fun m q => Part000.mapSet m q.Key q.Value) m =
      m ++ l.map fun q => (q.Key, q.Value)
  | [], m, _, _ => by simp
  | q :: t, m, hn, hf => by
    simp only [List.map_cons, List.nodup_cons] at hn
    have hset : Part000.mapSet m q.Key q.Value = m ++ [(q.Key, q.Value)] := by
      unfold Part000.mapSet
      rw [lookup_none_of_not_mem_keys (hf q (List.mem_cons_self q t))]
      simp
    simp only [List.foldl_cons, hset]
    rw [mapSet_fold t (m ++ [(q.Key, q.Value)]) hn.2 ?_]
    · simp
    · intro p hp
      simp only [List.map_append, List.mem_append, List.map_cons, not_or]
      refine ⟨hf p (List.mem_cons_of_mem q hp), ?_⟩
      have : p.Key ≠ q.Key := by
        intro he
        exact hn.1 (he ▸ List.mem_map_of_mem Part000.Qualifier.Key hp)
      simpa using this

/-- With duplicate-free keys, `Qualifiers.Map` is just the list of pairs. -/
theorem qualifiers_map_eq_pairs (l : Part000.Qualifiers)
    (hn : (l.map Part000.Qualifier.Key).Nodup) :
    Part000.Qualifiers.Map l = l.map fun q => (q.Key, q.Value) := by
  unfold Part000.Qualifiers.Map
  simpa using mapSet_fold l [] hn (by simp)

/-! ## Round trip of canonical qualifier maps through Encode and ParseQuery -/

/-- An absent byte makes `contains` false. -/
theorem contains_eq_false {s : GoStr} {c : Nat} (h : c ∉ s) : s.contains c = false := by
  simpa using h

/-- The flattened (key, value) pairs of a qualifier map, in order. -/
def flatPairs (qs : Values) : List (GoStr × GoStr) :=
  (qs.map fun kv => kv.2.map fun v => (kv.1, v)).flatten

/-- One `key=value` piece. -/
def renderPiece (kv : GoStr × GoStr) : GoStr := kv.1 ++ 61 :: kv.2

/-- The first byte of the first value is not an upper-case letter (so the
first-character lower-casing of the parser is a no-op). -/
def firstValueLower : List GoStr → Prop
  | (b :: _) :: _ => toLowerByte b = b
  | _ => True

/-- Decidability of `firstValueLower`. -/
instance : (vs : List GoStr) → Decidable (firstValueLower vs)
  | [] => .isTrue trivial
  | [] :: _ => .isTrue trivial
  | (b :: _) :: _ => Nat.decEq (toLowerByte b) b

/-- Canonical qualifier maps: strictly sorted keys that are valid,
lower-case and unreserved; non-empty value lists of non-empty unreserved
values; and a first value whose first byte is not upper-case. -/
def CanonQuals (qs : Values) : Prop :=
  qs.Pairwise (fun a b => lexLt a.1 b.1 = true) ∧
  ∀ kv ∈ qs, validQualifierKey kv.1 = true ∧ toLowerStr kv.1 = kv.1 ∧ unsStr kv.1 = true ∧
    kv.2 ≠ [] ∧ (∀ v ∈ kv.2, unsStr v = true ∧ v ≠ []) ∧ firstValueLower kv.2

/-- Instances of `CanonQuals` are decidable (used by the witnesses). -/
instance (qs : Values) : Decidable (CanonQuals qs) := by
  unfold CanonQuals
  infer_instance

/-- Splitting the `&`-join of separator-free pieces recovers the pieces. -/
theorem splitOn_joinAmp : ∀ {pieces : List GoStr}, pieces ≠ [] →
    (∀ p ∈ pieces, (38 : Nat) ∉ p) → splitOnByte (joinAmp pieces) 38 = pieces
  | [], h, _ => absurd rfl h
  | [p], _, h => by
    rw [show joinAmp [p] = p from rfl]
    exact splitOnByte_of_not_mem (h p (List.mem_cons_self p []))
  | p :: q :: rest, _, h => by
    rw [show joinAmp (p :: q :: rest) = p ++ 38 :: joinAmp (q :: rest) from rfl]
    rw [splitOnByte_append p (joinAmp (q :: rest)) (h p (List.mem_cons_self _ _))]
    rw [splitOn_joinAmp (by simp) fun x hx => h x (List.mem_cons_of_mem p hx)]

/-- Strictly sorted keys are duplicate-free. -/
theorem nodup_keys_of_canon {qs : Values}
    (hs : qs.Pairwise (fun a b => lexLt a.1 b.1 = true)) :
    (qs.map Prod.fst).Nodup := by
  have : qs.Pairwise (fun a b => a.1 ≠ b.1) := by
    refine hs.imp ?_
    intro a b hab he
    rw [he] at hab
    rw [lexLt_irrefl] at hab
    cases hab
  exact List.pairwise_map.mpr this

/-- Members of the flattened pairs come from entries. -/
theorem mem_flatPairs {qs : Values} {p : GoStr × GoStr} (hp : p ∈ flatPairs qs) :
    ∃ kv ∈ qs, p.1 = kv.1 ∧ p.2 ∈ kv.2 := by
  unfold flatPairs at hp
  rw [List.mem_flatten] at hp
  obtain ⟨l, hl, hpl⟩ := hp
  rw [List.mem_map] at hl
  obtain ⟨kv, hkv, rfl⟩ := hl
  rw [List.mem_map] at hpl
  obtain ⟨v, hv, rfl⟩ := hpl
  exact ⟨kv, hkv, rfl, hv⟩

/-- Non-empty maps with non-empty value lists flatten to something. -/
theorem flatPairs_ne_nil {qs : Values} (hq : qs ≠ []) (h : ∀ kv ∈ qs, kv.2 ≠ []) :
    flatPairs qs ≠ [] := by
  cases qs with
  | nil => exact absurd rfl hq
  | cons kv rest =>
    unfold flatPairs
    simp only [List.map_cons, List.flatten_cons]
    intro he
    rw [List.append_eq_nil] at he
    rw [List.map_eq_nil_iff] at he
    exact h kv (List.mem_cons_self kv rest) he.1

/-- The encoder output on a canonical map is the `&`-join of its rendered
pairs in entry order. -/
theorem encode_canonical (qs : Values)
    (hs : qs.Pairwise fun a b => lexLt a.1 b.1 = true)
    (hk : ∀ kv ∈ qs, unsStr kv.1 = true)
    (hv : ∀ kv ∈ qs, ∀ v ∈ kv.2, unsStr v = true) :
    Values.Encode qs = joinAmp ((flatPairs qs).map renderPiece) := by
  unfold Values.Encode
  have hkeys : sortStrings (qs.map Prod.fst) = qs.map Prod.fst :=
    sortStrings_eq_self (List.pairwise_map.mpr hs)
  rw [hkeys]
  have hnd := nodup_keys_of_canon hs
  show joinAmp (((qs.map Prod.fst).map fun k =>
      (Values.lookupList qs k).map fun w =>
        queryEscape k ++ [61] ++ queryEscape w).flatten) =
    joinAmp ((flatPairs qs).map renderPiece)
  congr 1
  rw [List.map_map]
  have hmap : qs.map ((fun k => (Values.lookupList qs k).map fun w =>
      queryEscape k ++ [61] ++ queryEscape w) ∘ Prod.fst) =
      qs.map (fun kv => kv.2.map fun v => renderPiece (kv.1, v)) := by
    apply List.map_congr_left
    intro kv hkv
    have hmem : (kv.1, kv.2) ∈ qs := Prod.mk.eta ▸ hkv
    have hl : Values.lookupList qs kv.1 = kv.2 := by
      unfold Values.lookupList
      rw [lookup_eq_some_of_mem_nodup hnd hmem]
    dsimp only [Function.comp]
    rw [hl]
    apply List.map_congr_left
    intro v hvv
    unfold renderPiece
    rw [queryEscape_uns (hk kv hkv), queryEscape_uns (hv kv hkv v hvv)]
    simp
  rw [hmap]
  unfold flatPairs
  rw [List.map_flatten, List.map_map]
  congr 1
  apply List.map_congr_left
  intro kv _
  dsimp only [Function.comp]
  rw [List.map_map]
  rfl

/-- The query parse loop on rendered clean pieces folds the pairs into the
map with `Add`. -/
theorem parseQueryPieces_clean : ∀ (ps : List (GoStr × GoStr)) (m : Values),
    (∀ kv ∈ ps, kv.1 ≠ [] ∧ (59 : Nat) ∉ kv.1 ∧ (59 : Nat) ∉ kv.2 ∧ (61 : Nat) ∉ kv.1 ∧
      queryUnescape kv.1 = .ok kv.1 ∧ queryUnescape kv.2 = .ok kv.2) →
    parseQueryPieces (ps.map renderPiece) m none =
      (ps.foldl (fun m kv => Values.add m kv.1 kv.2) m, none)
  | [], _, _ => rfl
  | kv :: ps, m, h => by
    obtain ⟨h1, h2, h3, h4, h5, h6⟩ := h kv (List.mem_cons_self kv ps)
    have hnm : (59 : Nat) ∉ renderPiece kv := by
      unfold renderPiece
      intro hm
      rcases List.mem_append.mp hm with hm1 | hm2
      · exact h2 hm1
      · rcases List.mem_cons.mp hm2 with he | hm3
        · exact absurd he (by decide)
        · exact h3 hm3
    have hne : renderPiece kv ≠ [] := by
      unfold renderPiece
      intro he
      rw [List.append_eq_nil] at he
      exact h1 he.1
    simp only [List.map_cons, parseQueryPieces]
    rw [if_neg (by rw [contains_eq_false hnm]; exact Bool.false_ne_true), if_neg hne]
    rw [show cut (renderPiece kv) 61 = (kv.1, kv.2, true) from cut_append kv.2 h4]
    dsimp only
    rw [h5]
    dsimp only
    rw [h6]
    exact parseQueryPieces_clean ps _ (fun x hx => h x (List.mem_cons_of_mem _ hx))

/-- Folding the adds of the flattened pairs of a duplicate-free map with
fresh keys appends the map. -/
theorem foldl_add_flatPairs : ∀ (qs : Values) (m : Values),
    (qs.map Prod.fst).Nodup → (∀ kv ∈ qs, kv.2 ≠ []) →
    (∀ kv ∈ qs, kv.1 ∉ m.map Prod.fst) →
    List.foldl (fun m kv => Values.add m kv.1 kv.2) m (flatPairs qs) = m ++ qs
  | [], m, _, _, _ => by simp [flatPairs]
  | kv :: qs, m, hn, hne, hdisj => by
    simp only [List.map_cons, List.nodup_cons] at hn
    have hk0 : kv.1 ∉ m.map Prod.fst := hdisj kv (List.mem_cons_self kv qs)
    have hinner : List.foldl (fun m p => Values.add m p.1 p.2) m
        (kv.2.map fun v => (kv.1, v)) = m ++ [(kv.1, kv.2)] := by
      cases hv : kv.2 with
      | nil => exact absurd hv (hne kv (List.mem_cons_self kv qs))
      | cons v vs =>
        simp only [List.map_cons, List.foldl_cons]
        rw [values_add_new v hk0, foldl_add_same_key vs m kv.1 [v] hk0]
        simp
    unfold flatPairs
    simp only [List.map_cons, List.flatten_cons]
    rw [List.foldl_append, hinner]
    have hrec := foldl_add_flatPairs qs (m ++ [(kv.1, kv.2)]) hn.2
      (fun x hx => hne x (List.mem_cons_of_mem kv hx)) ?_
    · unfold flatPairs at hrec
      rw [hrec]
      simp
    · intro x hx
      simp only [List.map_append, List.mem_append, List.map_cons, List.map_nil, not_or]
      refine ⟨hdisj x (List.mem_cons_of_mem kv hx), ?_⟩
      have : x.1 ≠ kv.1 := by
        intro he
        exact hn.1 (he ▸ List.mem_map_of_mem Prod.fst hx)
      simpa using this

/-- The key-normalization loop of `getQualifiers` is the identity on
canonical maps. -/
theorem gqLoop_noop : ∀ (ks : List GoStr) (qs : Values),
    (qs.map Prod.fst).Nodup →
    (∀ kv ∈ qs, validQualifierKey kv.1 = true ∧ toLowerStr kv.1 = kv.1 ∧
      kv.2 ≠ [] ∧ (∀ v ∈ kv.2, v ≠ []) ∧ firstValueLower kv.2) →
    (∀ k ∈ ks, k ∈ qs.map Prod.fst) → getQualifiersLoop ks qs = .ok qs
  | [], _, _, _, _ => rfl
  | k :: ks, qs, hnd, hfacts, hmem => by
    have hk := hmem k (List.mem_cons_self k ks)
    rw [List.mem_map] at hk
    obtain ⟨kv, hkv, rfl⟩ := hk
    obtain ⟨hvalid, hlow, hne, hvne, hfvl⟩ := hfacts kv hkv
    have hmem2 : (kv.1, kv.2) ∈ qs := Prod.mk.eta ▸ hkv
    have hlook : qs.lookup kv.1 = some kv.2 := lookup_eq_some_of_mem_nodup hnd hmem2
    have hget : Values.get qs kv.1 = kv.2.headD [] := by
      unfold Values.get Values.lookupList
      rw [hlook]
      cases kv.2 <;> rfl
    cases hv2 : kv.2 with
    | nil => exact absurd hv2 hne
    | cons v vs =>
      cases hv : v with
      | nil =>
        exact absurd (hv ▸ hv2 ▸ List.mem_cons_self v vs : ([] : GoStr) ∈ kv.2)
          (fun hm => hvne [] hm rfl)
      | cons b bs =>
        have hb : toLowerByte b = b := by
          have := hfvl
          rw [hv2, hv] at this
          exact this
        simp only [getQualifiersLoop]
        rw [if_neg (by simp [hvalid])]
        rw [hget, hv2, hv]
        dsimp only [List.headD_cons]
        rw [if_neg (by simp [hlow]), if_neg (by simp [hb])]
        exact gqLoop_noop ks qs hnd hfacts (fun x hx => hmem x (List.mem_cons_of_mem _ hx))

/-- Parsing the encoder output of a canonical qualifier map recovers it. -/
theorem getQualifiers_encode (qs : Values) (h : CanonQuals qs) :
    getQualifiers (Values.Encode qs) = .ok qs := by
  obtain ⟨hs, hfacts⟩ := h
  have hnd := nodup_keys_of_canon hs
  by_cases hq : qs = []
  · subst hq
    decide
  · rw [encode_canonical qs hs (fun kv hkv => (hfacts kv hkv).2.2.1)
      (fun kv hkv v hv => ((hfacts kv hkv).2.2.2.2.1 v hv).1)]
    unfold getQualifiers ParseQuery
    have hfp : ∀ p ∈ flatPairs qs, unsStr p.1 = true ∧ unsStr p.2 = true ∧ p.1 ≠ [] := by
      intro p hp
      obtain ⟨kv, hkv, he1, he2⟩ := mem_flatPairs hp
      obtain ⟨hvalid, _, hkuns, _, hvuns, _⟩ := hfacts kv hkv
      refine ⟨he1 ▸ hkuns, (hvuns p.2 he2).1, ?_⟩
      rw [he1]
      intro hke
      rw [hke] at hvalid
      exact absurd hvalid (by decide)
    have h38 : ∀ p ∈ (flatPairs qs).map renderPiece, (38 : Nat) ∉ p := by
      intro p hp
      rw [List.mem_map] at hp
      obtain ⟨x, hx, rfl⟩ := hp
      obtain ⟨hx1, hx2, _⟩ := hfp x hx
      unfold renderPiece
      intro hm
      rcases List.mem_append.mp hm with hm1 | hm2
      · exact ((unsByte_facts (List.all_eq_true.mp hx1 38 hm1)).2.2.2.2.2.2.1) rfl
      · rcases List.mem_cons.mp hm2 with he | hm3
        · exact absurd he (by decide)
        · exact ((unsByte_facts (List.all_eq_true.mp hx2 38 hm3)).2.2.2.2.2.2.1) rfl
    have hfpne : flatPairs qs ≠ [] :=
      flatPairs_ne_nil hq (fun kv hkv => (hfacts kv hkv).2.2.2.1)
    have hmne : (flatPairs qs).map renderPiece ≠ [] := by
      simp only [ne_eq, List.map_eq_nil_iff]
      exact hfpne
    have hclean : ∀ kv ∈ flatPairs qs, kv.1 ≠ [] ∧ (59 : Nat) ∉ kv.1 ∧
        (59 : Nat) ∉ kv.2 ∧ (61 : Nat) ∉ kv.1 ∧
        queryUnescape kv.1 = .ok kv.1 ∧ queryUnescape kv.2 = .ok kv.2 := by
      intro p hp
      obtain ⟨hp1, hp2, hp3⟩ := hfp p hp
      have f1 := fun b hb => unsByte_facts (List.all_eq_true.mp hp1 b hb)
      have f2 := fun b hb => unsByte_facts (List.all_eq_true.mp hp2 b hb)
      refine ⟨hp3, fun hm => (f1 59 hm).2.2.2.2.2.2.2.2.1 rfl,
        fun hm => (f2 59 hm).2.2.2.2.2.2.2.2.1 rfl,
        fun hm => (f1 61 hm).2.2.2.2.2.2.2.1 rfl,
        queryUnescape_uns hp1, queryUnescape_uns hp2⟩
    rw [splitOn_joinAmp hmne h38]
    rw [parseQueryPieces_clean (flatPairs qs) [] hclean]
    dsimp only
    rw [foldl_add_flatPairs qs [] hnd (fun kv hkv => (hfacts kv hkv).2.2.2.1) (by simp)]
    rw [List.nil_append]
    exact gqLoop_noop (qs.map Prod.fst) qs hnd
      (fun kv hkv => by
        obtain ⟨h1, h2, _, h4, h5, h6⟩ := hfacts kv hkv
        exact ⟨h1, h2, h4, fun v hv => (h5 v hv).2, h6⟩)
      (fun k hk => hk)

/-! ## Symbolic parsing of canonical purl strings -/

/-- Splitting always yields at least one piece. -/
theorem splitOnByte_ne_nil : ∀ (s : GoStr) (sep : Nat), splitOnByte s sep ≠ []
  | [], _ => by simp [splitOnByte]
  | b :: rest, sep => by
    unfold splitOnByte
    by_cases hb : b = sep
    · rw [if_pos hb]
      simp
    · rw [if_neg hb]
      simp

/-- The single step of `splitOnByte` on a leading byte. -/
theorem splitOnByte_cons (x : Nat) (s : GoStr) (sep : Nat) :
    splitOnByte (x :: s) sep =
      if x = sep then [] :: splitOnByte s sep
      else (x :: (splitOnByte s sep).headD []) :: (splitOnByte s sep).tail := rfl

/-- Splitting distributes over a separator between two arbitrary parts. -/
theorem splitOnByte_concat : ∀ (a b : GoStr) (sep : Nat),
    splitOnByte (a ++ sep :: b) sep = splitOnByte a sep ++ splitOnByte b sep
  | [], b, sep => by
    rw [List.nil_append, splitOnByte_cons, if_pos rfl]
    rfl
  | x :: a, b, sep => by
    rw [List.cons_append, splitOnByte_cons, splitOnByte_cons x a sep,
      splitOnByte_concat a b sep]
    by_cases hx : x = sep
    · rw [if_pos hx, if_pos hx]
      simp
    · rw [if_neg hx, if_neg hx]
      have hne := splitOnByte_ne_nil a sep
      cases hs : splitOnByte a sep with
      | nil => exact absurd hs hne
      | cons p ps => simp

/-- Rejoining the pieces with a leading separator each rebuilds the string
behind one leading separator. -/
theorem flatten_cons_split : ∀ (s : GoStr) (sep : Nat),
    ((splitOnByte s sep).map fun p => sep :: p).flatten = sep :: s
  | [], sep => by simp [splitOnByte]
  | b :: rest, sep => by
    have ih := flatten_cons_split rest sep
    rw [splitOnByte_cons]
    by_cases hb : b = sep
    · rw [if_pos hb]
      simp only [List.map_cons, List.flatten_cons]
      rw [ih, hb]
      rfl
    · rw [if_neg hb]
      have hne := splitOnByte_ne_nil rest sep
      cases hs : splitOnByte rest sep with
      | nil => exact absurd hs hne
      | cons p ps =>
        rw [hs] at ih
        simp only [List.map_cons, List.flatten_cons] at ih ⊢
        simp only [List.headD_cons, List.tail_cons]
        have ih2 : p ++ (ps.map fun q => sep :: q).flatten = rest := by
          rw [List.cons_append] at ih
          exact ((List.cons.injEq _ _ _ _).mp ih).2
        rw [List.cons_append, List.cons_append, ih2]

/-- Joining non-empty pieces yields a non-empty string. -/
theorem joinAmp_ne_nil : ∀ {pieces : List GoStr}, pieces ≠ [] →
    (∀ p ∈ pieces, p ≠ []) → joinAmp pieces ≠ []
  | [], h, _ => absurd rfl h
  | [p], _, h => by
    rw [show joinAmp [p] = p from rfl]
    exact h p (List.mem_cons_self p [])
  | p :: q :: rest, _, h => by
    rw [show joinAmp (p :: q :: rest) = p ++ 38 :: joinAmp (q :: rest) from rfl]
    simp

/-- Every byte of a join is a separator or a byte of a piece. -/
theorem mem_joinAmp : ∀ {pieces : List GoStr} {b : Nat}, b ∈ joinAmp pieces →
    b = 38 ∨ ∃ p ∈ pieces, b ∈ p
  | [], _, h => by cases h
  | [p], b, h => by
    rw [show joinAmp [p] = p from rfl] at h
    exact Or.inr ⟨p, List.mem_cons_self p [], h⟩
  | p :: q :: rest, b, h => by
    rw [show joinAmp (p :: q :: rest) = p ++ 38 :: joinAmp (q :: rest) from rfl] at h
    rcases List.mem_append.mp h with h1 | h2
    · exact Or.inr ⟨p, List.mem_cons_self p _, h1⟩
    · rcases List.mem_cons.mp h2 with he | h3
      · exact Or.inl he
      · rcases mem_joinAmp h3 with he | ⟨x, hx, hbx⟩
        · exact Or.inl he
        · exact Or.inr ⟨x, List.mem_cons_of_mem p hx, hbx⟩

/-- Every byte of a string is a separator or lies in one of its pieces. -/
theorem mem_splitOnByte_cover : ∀ (s : GoStr) (sep b : Nat), b ∈ s →
    b = sep ∨ ∃ p ∈ splitOnByte s sep, b ∈ p
  | [], _, _, h => by cases h
  | c :: rest, sep, b, h => by
    unfold splitOnByte
    by_cases hc : c = sep
    · rw [if_pos hc]
      rcases List.mem_cons.mp h with he | hm
      · exact Or.inl (he.trans hc)
      · rcases mem_splitOnByte_cover rest sep b hm with he | ⟨p, hp, hbp⟩
        · exact Or.inl he
        · exact Or.inr ⟨p, List.mem_cons_of_mem _ hp, hbp⟩
    · rw [if_neg hc]
      have hne := splitOnByte_ne_nil rest sep
      cases hs : splitOnByte rest sep with
      | nil => exact absurd hs hne
      | cons p ps =>
        simp only [List.headD_cons, List.tail_cons]
        rcases List.mem_cons.mp h with he | hm
        · exact Or.inr ⟨c :: p, List.mem_cons_self _ _, he ▸ List.mem_cons_self c p⟩
        · rcases mem_splitOnByte_cover rest sep b hm with he | ⟨x, hx, hbx⟩
          · exact Or.inl he
          · rw [hs] at hx
            rcases List.mem_cons.mp hx with hxe | hxm
            · exact Or.inr ⟨c :: p, List.mem_cons_self _ _,
                List.mem_cons_of_mem c (hxe ▸ hbx)⟩
            · exact Or.inr ⟨x, List.mem_cons_of_mem _ hxm, hbx⟩

/-- The inner URL parse of a `pkg:` string whose opaque part avoids the
URL metacharacters: the whole remainder becomes the opaque part and the
query is carried unsplit. -/
theorem parseInner_pkg (o q : GoStr)
    (ho : ∀ b ∈ o, 32 ≤ b ∧ b ≠ 127 ∧ b ≠ 35 ∧ b ≠ 63)
    (ho47 : o.head? ≠ some 47)
    (hq : ∀ b ∈ q, 32 ≤ b ∧ b ≠ 127 ∧ b ≠ 35 ∧ b ≠ 63) :
    parseInner (gs "pkg:" ++ o ++ (if q ≠ [] then 63 :: q else [])) =
      .ok ⟨gs "pkg", o, [], [], [], false, false, q, [], []⟩ := by
  have hpre : hasPrefix o (gs "/") = false :=
    Bool.eq_false_iff.mpr (fun hc => ho47 (hasPrefix_single.mp hc))
  by_cases hqe : q = []
  · subst hqe
    rw [show (if ([] : GoStr) ≠ [] then 63 :: ([] : GoStr) else []) = [] from rfl,
      List.append_nil]
    rw [show gs "pkg:" ++ o = 112 :: 107 :: 103 :: 58 :: o from rfl]
    unfold parseInner
    have hctl : containsCTLByte (112 :: 107 :: 103 :: 58 :: o) = false := by
      apply containsCTLByte_eq_false
      intro b hb
      simp only [List.mem_cons] at hb
      rcases hb with rfl | rfl | rfl | rfl | hm
      · decide
      · decide
      · decide
      · decide
      · have := ho b hm
        omega
    rw [hctl, if_neg (by simp)]
    rw [if_neg (by
      intro he
      rw [show gs "*" = [42] from rfl] at he
      simp at he)]
    rw [getScheme_concrete 112 107 103 o (by decide) (by decide) (by decide)]
    dsimp only
    have hsufeq : hasSuffix o (gs "?") = false :=
      Bool.eq_false_iff.mpr (fun hc =>
        (ho 63 (List.mem_of_mem_getLast? (hasSuffix_single.mp hc))).2.2.2 rfl)
    rw [hsufeq]
    simp only [Bool.false_eq_true, false_and, if_false]
    rw [urlSplit_of_not_mem (fun hm => (ho 63 hm).2.2.2 rfl)]
    dsimp only
    rw [hpre]
    simp only [Bool.false_eq_true, not_false_eq_true, if_true]
    rw [if_pos (by decide : toLowerStr [112, 107, 103] ≠ [])]
    rfl
  · rw [if_pos hqe]
    rw [List.append_assoc]
    rw [show gs "pkg:" ++ (o ++ 63 :: q) = 112 :: 107 :: 103 :: 58 :: (o ++ 63 :: q) from rfl]
    unfold parseInner
    have hctl : containsCTLByte (112 :: 107 :: 103 :: 58 :: (o ++ 63 :: q)) = false := by
      apply containsCTLByte_eq_false
      intro b hb
      simp only [List.mem_cons] at hb
      rcases hb with rfl | rfl | rfl | rfl | hm
      · decide
      · decide
      · decide
      · decide
      · rcases List.mem_append.mp hm with h3 | h4
        · have := ho b h3
          omega
        · rcases List.mem_cons.mp h4 with rfl | h5
          · decide
          · have := hq b h5
            omega
    rw [hctl, if_neg (by simp)]
    rw [if_neg (by
      intro he
      rw [show gs "*" = [42] from rfl] at he
      simp at he)]
    rw [getScheme_concrete 112 107 103 _ (by decide) (by decide) (by decide)]
    dsimp only
    have hsufeq : hasSuffix (o ++ 63 :: q) (gs "?") = false := by
      apply Bool.eq_false_iff.mpr
      intro hc
      have hl := hasSuffix_single.mp hc
      rw [List.getLast?_append_of_ne_nil _ (by simp : (63 :: q : GoStr) ≠ [])] at hl
      cases q with
      | nil => exact absurd rfl hqe
      | cons v vs =>
        rw [show ((63 :: v :: vs : GoStr).getLast? = (v :: vs : GoStr).getLast?) from
          List.getLast?_append_of_ne_nil [63] (by simp)] at hl
        exact (hq 63 (List.mem_of_mem_getLast? hl)).2.2.2 rfl
    rw [hsufeq]
    simp only [Bool.false_eq_true, false_and, if_false]
    rw [urlSplit_append q (fun hm => (ho 63 hm).2.2.2 rfl)]
    dsimp only
    rw [hpre]
    simp only [Bool.false_eq_true, not_false_eq_true, if_true]
    rw [if_pos (by decide : toLowerStr [112, 107, 103] ≠ [])]
    rfl

/-- The full URL parse of a rendered purl whose pieces avoid the URL
metacharacters. -/
theorem urlParse_pkg (o q f : GoStr)
    (ho : ∀ b ∈ o, 32 ≤ b ∧ b ≠ 127 ∧ b ≠ 35 ∧ b ≠ 63)
    (ho47 : o.head? ≠ some 47)
    (hq : ∀ b ∈ q, 32 ≤ b ∧ b ≠ 127 ∧ b ≠ 35 ∧ b ≠ 63)
    (hf : ∀ b ∈ f, unsByte b = true ∨ b = 47) :
    urlParse (gs "pkg:" ++ o ++ (if q ≠ [] then 63 :: q else []) ++
        (if f ≠ [] then 35 :: f else [])) =
      .ok ⟨gs "pkg", o, [], [], [], false, false, q, f, []⟩ := by
  have h35 : (35 : Nat) ∉ gs "pkg:" ++ o ++ (if q ≠ [] then 63 :: q else []) := by
    intro hm
    rcases List.mem_append.mp hm with h1 | h2
    · rcases List.mem_append.mp h1 with h3 | h4
      · exact absurd h3 (by decide)
      · exact (ho 35 h4).2.2.1 rfl
    · by_cases hqe : q = []
      · rw [if_neg (by simp [hqe])] at h2
        cases h2
      · rw [if_pos hqe] at h2
        rcases List.mem_cons.mp h2 with he | h5
        · omega
        · exact (hq 35 h5).2.2.1 rfl
  unfold urlParse
  by_cases hfe : f = []
  · subst hfe
    rw [show (if ([] : GoStr) ≠ [] then 35 :: ([] : GoStr) else []) = [] from rfl,
      List.append_nil]
    rw [urlSplit_of_not_mem h35]
    dsimp only
    rw [parseInner_pkg o q ho ho47 hq]
    dsimp only
    rw [if_pos rfl]
  · rw [if_pos hfe]
    rw [urlSplit_append f h35]
    dsimp only
    rw [parseInner_pkg o q ho ho47 hq]
    dsimp only
    rw [if_neg hfe]
    have hnp : ∀ b ∈ f, b ≠ 37 ∧ ¬(b = 43 ∧ Encoding.fragment = Encoding.queryComponent) := by
      intro b hb
      refine ⟨?_, by rintro ⟨_, hc⟩; cases hc⟩
      rcases hf b hb with hu | h47
      · exact (unsByte_facts hu).1
      · omega
    have hesc : ∀ b ∈ f, shouldEscape b .fragment = false := by
      intro b hb
      rcases hf b hb with hu | h47
      · exact shouldEscape_uns _ hu
      · subst h47
        decide
    have hsf : setFragmentFn f = some (f, []) := by
      unfold setFragmentFn
      rw [unescape_eq_self (by decide) (by decide) hnp]
      dsimp only
      rw [if_pos (escape_eq_self hesc)]
    rw [hsf]

/-- A query with the same valid key twice parses into one entry holding
both values in order (no duplicate-key error). -/
theorem getQualifiers_dup (k v1 v2 : GoStr) (hk : validQualifierKey k = true)
    (hklow : toLowerStr k = k) (hkuns : unsStr k = true)
    (h1 : unsStr v1 = true) (h2 : unsStr v2 = true)
    (h1ne : v1 ≠ []) (h2ne : v2 ≠ []) (hfl : firstValueLower [v1, v2]) :
    getQualifiers ((k ++ 61 :: v1) ++ 38 :: (k ++ 61 :: v2)) = .ok [(k, [v1, v2])] := by
  have hkne : k ≠ [] := by
    intro he
    rw [he] at hk
    exact absurd hk (by decide)
  unfold getQualifiers ParseQuery
  rw [show (k ++ 61 :: v1) ++ 38 :: (k ++ 61 :: v2) =
    joinAmp ([(k, v1), (k, v2)].map renderPiece) from rfl]
  have hfp : ∀ p ∈ ([(k, v1), (k, v2)] : List (GoStr × GoStr)),
      unsStr p.1 = true ∧ unsStr p.2 = true := by
    intro p hp
    rcases List.mem_cons.mp hp with rfl | hp2
    · exact ⟨hkuns, h1⟩
    · rcases List.mem_cons.mp hp2 with rfl | hp3
      · exact ⟨hkuns, h2⟩
      · cases hp3
  have h38 : ∀ p ∈ ([(k, v1), (k, v2)] : List (GoStr × GoStr)).map renderPiece,
      (38 : Nat) ∉ p := by
    intro p hp
    rw [List.mem_map] at hp
    obtain ⟨x, hx, rfl⟩ := hp
    obtain ⟨hx1, hx2⟩ := hfp x hx
    unfold renderPiece
    intro hm
    rcases List.mem_append.mp hm with hm1 | hm2
    · exact ((unsByte_facts (List.all_eq_true.mp hx1 38 hm1)).2.2.2.2.2.2.1) rfl
    · rcases List.mem_cons.mp hm2 with he | hm3
      · exact absurd he (by decide)
      · exact ((unsByte_facts (List.all_eq_true.mp hx2 38 hm3)).2.2.2.2.2.2.1) rfl
  rw [splitOn_joinAmp (by simp) h38]
  rw [parseQueryPieces_clean [(k, v1), (k, v2)] [] ?_]
  · have hfold : List.foldl (fun m kv => Values.add m kv.1 kv.2) []
        [(k, v1), (k, v2)] = [(k, [v1, v2])] := by
      simp only [List.foldl_cons, List.foldl_nil]
      rw [values_add_new v1 (by simp), List.nil_append]
      rw [show ([(k, [v1])] : Values) = [] ++ [(k, [v1])] from rfl]
      rw [values_add_found [v1] v2 (by simp)]
      simp
    rw [hfold]
    dsimp only
    apply gqLoop_noop [k] [(k, [v1, v2])] (by simp)
    · intro kv hkv
      rcases List.mem_cons.mp hkv with rfl | hkv2
      · refine ⟨hk, hklow, by simp, ?_, hfl⟩
        intro v hv
        rcases List.mem_cons.mp hv with rfl | hv2
        · exact h1ne
        · rcases List.mem_cons.mp hv2 with rfl | hv3
          · exact h2ne
          · cases hv3
      · cases hkv2
    · intro x hx
      exact hx
  · intro p hp
    obtain ⟨hp1, hp2⟩ := hfp p hp
    have hpne : p.1 ≠ [] := by
      rcases List.mem_cons.mp hp with rfl | hp2
      · exact hkne
      · rcases List.mem_cons.mp hp2 with rfl | hp3
        · exact hkne
        · cases hp3
    have f1 := fun b hb => unsByte_facts (List.all_eq_true.mp hp1 b hb)
    have f2 := fun b hb => unsByte_facts (List.all_eq_true.mp hp2 b hb)
    refine ⟨hpne, fun hm => (f1 59 hm).2.2.2.2.2.2.2.2.1 rfl,
      fun hm => (f2 59 hm).2.2.2.2.2.2.2.2.1 rfl,
      fun hm => (f1 61 hm).2.2.2.2.2.2.2.1 rfl,
      queryUnescape_uns hp1, queryUnescape_uns hp2⟩

/-- `FromString` on `pkg:t/n?` followed by a non-empty query of safe bytes
is determined by `getQualifiers` on the query. -/
theorem fromString_tn_query (q : GoStr) (hqne : q ≠ [])
    (hq : ∀ b ∈ q, 32 ≤ b ∧ b ≠ 127 ∧ b ≠ 35 ∧ b ≠ 63)
    (qs : Values) (hgq : getQualifiers q = .ok qs) :
    FromString (gs "pkg:t/n?" ++ q) = .ok ⟨gs "t", [], gs "n", [], qs, []⟩ := by
  unfold FromString
  have hshape : gs "pkg:t/n?" ++ q =
      gs "pkg:" ++ gs "t/n" ++ (if q ≠ [] then 63 :: q else []) ++
        (if ([] : GoStr) ≠ [] then 35 :: ([] : GoStr) else []) := by
    rw [if_pos hqne, if_neg (by simp)]
    rw [List.append_nil]
    rw [show gs "pkg:" ++ gs "t/n" ++ 63 :: q = gs "pkg:t/n?" ++ q from rfl]
  rw [hshape]
  rw [urlParse_pkg (gs "t/n") q [] (by
      intro b hb
      rw [show gs "t/n" = [116, 47, 110] from rfl] at hb
      simp only [List.mem_cons, List.not_mem_nil, or_false] at hb
      rcases hb with rfl | rfl | rfl
      · decide
      · decide
      · decide)
    (by decide) hq (by simp)]
  dsimp only
  rw [if_neg (by decide : ¬ (gs "pkg" ≠ gs "pkg"))]
  rw [if_neg (by decide : ¬ (gs "t/n" = ([] : GoStr)))]
  rw [show cut (gs "t/n") 47 = (gs "t", gs "n", true) from by decide]
  dsimp only
  rw [if_neg (by decide : ¬ (¬ (true = true)))]
  rw [hgq]
  dsimp only
  rw [show separateNamespaceNameVersion (gs "n") = .ok ([], gs "n", []) from by decide]
  dsimp only
  rw [show toLowerStr (gs "t") = gs "t" from rfl]
  rw [show typeAdjustNamespace (gs "t") [] = [] from by decide]
  have hn : typeAdjustName (gs "t") (gs "n") qs = gs "n" := by
    unfold typeAdjustName
    rw [if_neg (by decide), if_neg (by decide), if_neg (by decide)]
  rw [hn]
  rw [show typeAdjustVersion (gs "t") [] = [] from by decide]
  rw [show trimChar ([] : GoStr) 47 = [] from rfl]
  have hv : validCustomRules ⟨gs "t", [], gs "n", [], qs, []⟩ = none := by
    unfold validCustomRules
    dsimp only
    rw [if_neg (by decide), if_neg (by decide), if_neg (by decide)]
  rw [hv]

/-- Encoding a single-key map whose only value is the empty string yields
`key=`. -/
theorem encode_single_empty (k : GoStr) (hk : unsStr k = true) :
    Values.Encode [(k, [[]])] = k ++ [61] := by
  unfold Values.Encode
  have hlook : Values.lookupList [(k, [[]])] k = [[]] := by
    unfold Values.lookupList
    simp [List.lookup]
  show joinAmp (([k].map fun k2 => (Values.lookupList [(k, [[]])] k2).map fun w =>
      queryEscape k2 ++ [61] ++ queryEscape w).flatten) = k ++ [61]
  rw [List.map_cons, List.map_nil, hlook]
  simp only [List.map_cons, List.map_nil, List.flatten_cons, List.flatten_nil,
    List.append_nil]
  rw [show joinAmp [queryEscape k ++ [61] ++ queryEscape []] =
    queryEscape k ++ [61] ++ queryEscape [] from rfl]
  rw [queryEscape_uns hk, show queryEscape [] = [] from rfl, List.append_nil]

/-- Unreserved bytes are safe in every position of a URL. -/
theorem unsByte_urlsafe {b : Nat} (h : unsByte b = true) :
    32 ≤ b ∧ b ≠ 127 ∧ b ≠ 35 ∧ b ≠ 63 := by
  obtain ⟨-, -, -, -, a5, a6, -, -, -, -, -, a12, a13⟩ := unsByte_facts h
  exact ⟨by omega, a13, a6, a5⟩

/-- The byte shape of an encoded canonical qualifier map. -/
theorem encode_bytes (qs : Values) (h : CanonQuals qs) :
    ∀ b ∈ Values.Encode qs, 32 ≤ b ∧ b ≠ 127 ∧ b ≠ 35 ∧ b ≠ 63 := by
  obtain ⟨hs, hfacts⟩ := h
  intro b hb
  rw [encode_canonical qs hs (fun kv hkv => (hfacts kv hkv).2.2.1)
    (fun kv hkv v hv => ((hfacts kv hkv).2.2.2.2.1 v hv).1)] at hb
  rcases mem_joinAmp hb with rfl | ⟨p, hp, hbp⟩
  · decide
  · rw [List.mem_map] at hp
    obtain ⟨x, hx, rfl⟩ := hp
    obtain ⟨kv, hkv, he1, he2⟩ := mem_flatPairs hx
    obtain ⟨-, -, hkuns, -, hvuns, -⟩ := hfacts kv hkv
    unfold renderPiece at hbp
    rcases List.mem_append.mp hbp with h1 | h2
    · exact unsByte_urlsafe (List.all_eq_true.mp (he1 ▸ hkuns) b h1)
    · rcases List.mem_cons.mp h2 with rfl | h3
      · decide
      · exact unsByte_urlsafe (List.all_eq_true.mp ((hvuns x.2 he2).1) b h3)

/-- The joining fold of `path.Join` on a non-empty buffer prefixes every
element (also the empty ones) with a slash. -/
theorem pathJoinFold : ∀ (l : List GoStr) (buf : GoStr), buf ≠ [] →
    List.foldl (fun buf e => if buf.length > 0 ∨ e ≠ [] then
      (if buf.length > 0 then buf ++ [47] else buf) ++ e else buf) buf l =
    buf ++ (l.map fun e => 47 :: e).flatten
  | [], buf, _ => by simp
  | e :: rest, buf, hb => by
    have hlen : buf.length > 0 := by
      cases buf with
      | nil => exact absurd rfl hb
      | cons x xs => simp
    simp only [List.foldl_cons]
    rw [show (if buf.length > 0 ∨ e ≠ [] then
      (if buf.length > 0 then buf ++ [47] else buf) ++ e else buf) = buf ++ 47 :: e from by
      rw [if_pos (Or.inl hlen), if_pos hlen]
      simp]
    rw [pathJoinFold rest (buf ++ 47 :: e) (by simp)]
    simp

/-- `path.Join` on a leading `"/"` element: slash-join everything and
clean. -/
theorem pathJoin_shape (l : List GoStr) :
    pathJoin ([47] :: l) = pathClean (47 :: (l.map fun e => 47 :: e).flatten) := by
  unfold pathJoin
  rw [if_neg (by
    simp only [List.map_cons, List.sum_cons, List.length_cons, List.length_nil]
    omega)]
  have hfold := pathJoinFold l [47] (by simp)
  exact congrArg pathClean (by
    simp only [List.foldl_cons]
    exact hfold)

/-- The copying behavior of the clean loop on good segments. -/
theorem cleanSegs_good : ∀ (segs : List GoStr) (out : GoStr) (d : Nat),
    (∀ s ∈ segs, s ≠ [] ∧ s ≠ [46] ∧ s ≠ [46, 46]) → 2 ≤ out.length →
    cleanSegs true segs out d = out ++ (segs.map fun s => 47 :: s).flatten
  | [], out, d, _, _ => by simp [cleanSegs]
  | seg :: rest, out, d, h, hlen => by
    obtain ⟨h1, h2, h3⟩ := h seg (List.mem_cons_self seg rest)
    unfold cleanSegs
    rw [if_neg h1, if_neg h2, if_neg h3]
    rw [if_pos (Or.inl ⟨rfl, by omega⟩)]
    show cleanSegs true rest ((out ++ [47]) ++ seg) d = _
    rw [cleanSegs_good rest ((out ++ [47]) ++ seg) d
      (fun s hs => h s (List.mem_cons_of_mem _ hs)) (by simp; omega)]
    simp

/-- The clean loop skips an empty segment. -/
theorem cleanSegs_skip_empty (segs : List GoStr) (out : GoStr) (d : Nat) :
    cleanSegs true ([] :: segs) out d = cleanSegs true segs out d := by
  conv_lhs => unfold cleanSegs
  rw [if_pos rfl]

/-- The first good segment after the root is copied without a second
slash. -/
theorem cleanSegs_first (T : GoStr) (segs : List GoStr) (hTne : T ≠ [])
    (hTd : T ≠ [46]) (hTdd : T ≠ [46, 46]) :
    cleanSegs true (T :: segs) [47] 1 = cleanSegs true segs ([47] ++ T) 1 := by
  conv_lhs => unfold cleanSegs
  rw [if_neg hTne, if_neg hTd, if_neg hTdd, if_neg (by simp)]

/-- `URL.JoinPath` from the empty base on a canonical
type/namespace/name-version triple: the pieces are slash-joined verbatim
and the raw path stays empty. -/
theorem joinPathEmptyBase_canonical (T NS NwV : GoStr)
    (hTne : T ≠ []) (hTuns : unsStr T = true) (hTd : T ≠ [46]) (hTdd : T ≠ [46, 46])
    (hNS : NS = [] ∨ ∀ s ∈ splitOnByte NS 47,
      s ≠ [] ∧ unsStr s = true ∧ s ≠ [46] ∧ s ≠ [46, 46])
    (hVne : NwV ≠ []) (hVb : ∀ b ∈ NwV, unsByte b = true ∨ b = 64)
    (hVd : NwV ≠ [46]) (hVdd : NwV ≠ [46, 46]) :
    joinPathEmptyBase [T, NS, NwV] =
      (T ++ (if NS = [] then [] else 47 :: NS) ++ 47 :: NwV, []) := by
  have h47T : (47 : Nat) ∉ T := fun hm =>
    (unsByte_facts (List.all_eq_true.mp hTuns 47 hm)).2.2.1 rfl
  have h47V : (47 : Nat) ∉ NwV := by
    intro hm
    rcases hVb 47 hm with hu | h64
    · exact (unsByte_facts hu).2.2.1 rfl
    · omega
  have hNSb : ∀ b ∈ NS, unsByte b = true ∨ b = 47 := by
    intro b hb
    rcases hNS with hNSe | hsegs
    · rw [hNSe] at hb
      cases hb
    · rcases mem_splitOnByte_cover NS 47 b hb with he | ⟨p, hp, hbp⟩
      · exact Or.inr he
      · exact Or.inl (List.all_eq_true.mp (hsegs p hp).2.1 b hbp)
  have hflat : ((([T, NS, NwV].map fun e => 47 :: e).flatten : GoStr)) =
      47 :: (T ++ 47 :: (NS ++ 47 :: NwV)) := by
    simp
  have hclean : pathClean (47 :: 47 :: (T ++ 47 :: (NS ++ 47 :: NwV))) =
      47 :: (T ++ (if NS = [] then [] else 47 :: NS) ++ 47 :: NwV) := by
    unfold pathClean
    rw [if_neg (by simp)]
    dsimp only
    rw [if_pos (show (47 :: 47 :: (T ++ 47 :: (NS ++ 47 :: NwV)) : GoStr).head? =
      some 47 from rfl)]
    rw [show ((47 :: 47 :: (T ++ 47 :: (NS ++ 47 :: NwV)) : GoStr).drop 1) =
      47 :: (T ++ 47 :: (NS ++ 47 :: NwV)) from rfl]
    rw [show splitOnByte (47 :: (T ++ 47 :: (NS ++ 47 :: NwV))) 47 =
      [] :: splitOnByte (T ++ 47 :: (NS ++ 47 :: NwV)) 47 from by
      rw [splitOnByte_cons, if_pos rfl]]
    rw [splitOnByte_append T _ h47T, splitOnByte_concat NS NwV 47,
      splitOnByte_of_not_mem h47V]
    rw [cleanSegs_skip_empty, cleanSegs_first T _ hTne hTd hTdd]
    rcases hNS with hNSe | hsegs
    · subst hNSe
      rw [if_pos rfl]
      rw [show splitOnByte ([] : GoStr) 47 = [[]] from rfl]
      rw [show (([[]] ++ [NwV] : List GoStr)) = [] :: [NwV] from rfl]
      rw [cleanSegs_skip_empty]
      rw [cleanSegs_good [NwV] ([47] ++ T) 1
        (by
          intro s hs
          rcases List.mem_cons.mp hs with rfl | hs2
          · exact ⟨hVne, hVd, hVdd⟩
          · cases hs2)
        (by
          simp only [List.length_append, List.length_cons, List.length_nil]
          have := List.length_pos.mpr hTne
          omega)]
      rw [if_neg (by simp)]
      simp
    · have hNSne : NS ≠ [] := by
        intro he
        subst he
        exact (hsegs [] (by
          rw [show splitOnByte ([] : GoStr) 47 = [[]] from rfl]
          exact List.mem_cons_self _ _)).1 rfl
      rw [if_neg hNSne]
      rw [cleanSegs_good (splitOnByte NS 47 ++ [NwV]) ([47] ++ T) 1
        (by
          intro s hs
          rcases List.mem_append.mp hs with hs1 | hs2
          · exact ⟨(hsegs s hs1).1, (hsegs s hs1).2.2.1, (hsegs s hs1).2.2.2⟩
          · rcases List.mem_cons.mp hs2 with rfl | hs3
            · exact ⟨hVne, hVd, hVdd⟩
            · cases hs3)
        (by
          simp only [List.length_append, List.length_cons, List.length_nil]
          have := List.length_pos.mpr hTne
          omega)]
      rw [if_neg (by simp)]
      rw [List.map_append, List.flatten_append, flatten_cons_split NS 47]
      simp
  have hcoreb : ∀ b ∈ T ++ (if NS = [] then [] else 47 :: NS) ++ 47 :: NwV,
      unsByte b = true ∨ b = 47 ∨ b = 64 := by
    intro b hb
    rcases List.mem_append.mp hb with h1 | h2
    · rcases List.mem_append.mp h1 with h3 | h4
      · exact Or.inl (List.all_eq_true.mp hTuns b h3)
      · by_cases hNSe : NS = []
        · rw [if_pos hNSe] at h4
          cases h4
        · rw [if_neg hNSe] at h4
          rcases List.mem_cons.mp h4 with rfl | h5
          · exact Or.inr (Or.inl rfl)
          · rcases hNSb b h5 with hu | h47
            · exact Or.inl hu
            · exact Or.inr (Or.inl h47)
    · rcases List.mem_cons.mp h2 with rfl | h3
      · exact Or.inr (Or.inl rfl)
      · rcases hVb b h3 with hu | h64
        · exact Or.inl hu
        · exact Or.inr (Or.inr h64)
  have hset : setPathFn (T ++ (if NS = [] then [] else 47 :: NS) ++ 47 :: NwV) =
      some (T ++ (if NS = [] then [] else 47 :: NS) ++ 47 :: NwV, []) := by
    unfold setPathFn
    rw [unescape_eq_self (by decide) (by decide) (by
      intro b hb
      refine ⟨?_, by rintro ⟨-, hc⟩; cases hc⟩
      rcases hcoreb b hb with hu | h47 | h64
      · exact (unsByte_facts hu).1
      · omega
      · omega)]
    dsimp only
    rw [if_pos (escape_eq_self (by
      intro b hb
      rcases hcoreb b hb with hu | rfl | rfl
      · exact shouldEscape_uns _ hu
      · decide
      · decide))]
  unfold joinPathEmptyBase
  rw [pathJoin_shape [T, NS, NwV], hflat, hclean]
  dsimp only
  rw [show ((47 :: (T ++ (if NS = [] then [] else 47 :: NS) ++ 47 :: NwV) : GoStr).drop 1)
    = T ++ (if NS = [] then [] else 47 :: NS) ++ 47 :: NwV from rfl]
  rw [show (([T, NS, NwV].getLastD [] : GoStr)) = NwV from rfl]
  have hsufV : hasSuffix NwV [47] = false := by
    apply Bool.eq_false_iff.mpr
    intro hc
    exact h47V (List.mem_of_mem_getLast? (hasSuffix_single.mp hc))
  rw [hsufV]
  simp only [Bool.false_eq_true, false_and, if_false]
  rw [hset]

/-- Splitting a canonical `name@version` at the last `@`. -/
theorem sepNV_shape (ns N V : GoStr) (hN : unsStr N = true) (hNne : N ≠ [])
    (hV : unsStr V = true) :
    separateNamespaceNameVersion.separateNameVersion ns
      (N ++ (if V ≠ [] then 64 :: V else [])) = .ok (ns, N, V) := by
  have h64N : (64 : Nat) ∉ N := fun hm =>
    (unsByte_facts (List.all_eq_true.mp hN 64 hm)).2.2.2.1 rfl
  by_cases hVe : V = []
  · subst hVe
    rw [show (if ([] : GoStr) ≠ [] then 64 :: ([] : GoStr) else []) = [] from rfl,
      List.append_nil]
    unfold separateNamespaceNameVersion.separateNameVersion
    rw [lastIndexByte_of_not_mem h64N]
    dsimp only
    unfold separateNamespaceNameVersion.finishName
    rw [pathUnescape_id (fun b hb => (unsByte_facts (List.all_eq_true.mp hN b hb)).1)]
    dsimp only
    rw [if_neg hNne]
  · rw [if_pos hVe]
    have h64V : (64 : Nat) ∉ V := fun hm =>
      (unsByte_facts (List.all_eq_true.mp hV 64 hm)).2.2.2.1 rfl
    unfold separateNamespaceNameVersion.separateNameVersion
    rw [lastIndexByte_append N V h64V]
    dsimp only
    rw [take_append_cons, drop_append_cons]
    rw [pathUnescape_id (fun b hb => (unsByte_facts (List.all_eq_true.mp hV b hb)).1)]
    dsimp only
    unfold separateNamespaceNameVersion.finishName
    rw [pathUnescape_id (fun b hb => (unsByte_facts (List.all_eq_true.mp hN b hb)).1)]
    dsimp only
    rw [if_neg hNne]

/-- Decomposition of a canonical `namespace/name@version` remainder. -/
theorem sepNNV_canonical (NS N V : GoStr)
    (hNSb : ∀ b ∈ NS, unsByte b = true ∨ b = 47)
    (hN : unsStr N = true) (hNne : N ≠ []) (hV : unsStr V = true) :
    separateNamespaceNameVersion
      (if NS = [] then N ++ (if V ≠ [] then 64 :: V else [])
       else NS ++ 47 :: (N ++ (if V ≠ [] then 64 :: V else []))) = .ok (NS, N, V) := by
  have h47NwV : (47 : Nat) ∉ N ++ (if V ≠ [] then 64 :: V else []) := by
    intro hm
    rcases List.mem_append.mp hm with h1 | h2
    · exact (unsByte_facts (List.all_eq_true.mp hN 47 h1)).2.2.1 rfl
    · by_cases hVe : V = []
      · rw [if_neg (by simp [hVe])] at h2
        cases h2
      · rw [if_pos hVe] at h2
        rcases List.mem_cons.mp h2 with he | h3
        · exact absurd he (by decide)
        · exact (unsByte_facts (List.all_eq_true.mp hV 47 h3)).2.2.1 rfl
  by_cases hNSe : NS = []
  · subst hNSe
    rw [if_pos rfl]
    unfold separateNamespaceNameVersion
    rw [lastIndexByte_of_not_mem h47NwV]
    dsimp only
    exact sepNV_shape [] N V hN hNne hV
  · rw [if_neg hNSe]
    unfold separateNamespaceNameVersion
    rw [lastIndexByte_append NS _ h47NwV]
    dsimp only
    rw [take_append_cons, drop_append_cons]
    rw [pathUnescape_id (by
      intro b hb
      rcases hNSb b hb with hu | h47
      · exact (unsByte_facts hu).1
      · omega)]
    dsimp only
    exact sepNV_shape NS N V hN hNne hV

/-- Records whose fields are already in the canonical shape produced by
parsing: a non-empty lower-case unreserved type; a namespace that is empty
or consists of non-empty, non-dot unreserved `/`-separated segments; a
non-empty, non-dot unreserved name; an unreserved version; canonical
qualifiers; a subpath of unreserved-or-`/` bytes with no leading or
trailing slash; type adjustments that fix the record; and no custom-rule
violation. -/
def CanonicalRecord (r : PackageURL) : Prop :=
  (r.Type_ ≠ [] ∧ unsStr r.Type_ = true ∧ toLowerStr r.Type_ = r.Type_ ∧
    r.Type_ ≠ [46] ∧ r.Type_ ≠ [46, 46]) ∧
  (r.Namespace = [] ∨ ∀ s ∈ splitOnByte r.Namespace 47,
    s ≠ [] ∧ unsStr s = true ∧ s ≠ [46] ∧ s ≠ [46, 46]) ∧
  (r.Name ≠ [] ∧ unsStr r.Name = true ∧ r.Name ≠ [46] ∧ r.Name ≠ [46, 46]) ∧
  unsStr r.Version = true ∧
  CanonQuals r.Qualifiers ∧
  ((∀ b ∈ r.Subpath, unsByte b = true ∨ b = 47) ∧
    r.Subpath.head? ≠ some 47 ∧ r.Subpath.getLast? ≠ some 47) ∧
  typeAdjustNamespace r.Type_ r.Namespace = r.Namespace ∧
  typeAdjustName r.Type_ r.Name r.Qualifiers = r.Name ∧
  typeAdjustVersion r.Type_ r.Version = r.Version ∧
  validCustomRules r = none

/-- Instances of `CanonicalRecord` are decidable (used by the witness). -/
instance (r : PackageURL) : Decidable (CanonicalRecord r) := by
  unfold CanonicalRecord
  infer_instance

/-- The serialization of a canonical record, byte by byte. -/
theorem toString_canonical (T NS N V : GoStr) (QS : Values) (SP : GoStr)
    (hTne : T ≠ []) (hTuns : unsStr T = true) (hTd : T ≠ [46]) (hTdd : T ≠ [46, 46])
    (hNS : NS = [] ∨ ∀ s ∈ splitOnByte NS 47,
      s ≠ [] ∧ unsStr s = true ∧ s ≠ [46] ∧ s ≠ [46, 46])
    (hNne : N ≠ []) (hNuns : unsStr N = true) (hNd : N ≠ [46]) (hNdd : N ≠ [46, 46])
    (hVuns : unsStr V = true)
    (hSPb : ∀ b ∈ SP, unsByte b = true ∨ b = 47) :
    ToString ⟨T, NS, N, V, QS, SP⟩ =
      gs "pkg:" ++ (T ++ (if NS = [] then [] else 47 :: NS) ++
        47 :: (N ++ (if V ≠ [] then 64 :: V else []))) ++
      (if Values.Encode QS ≠ [] then 63 :: Values.Encode QS else []) ++
      (if SP ≠ [] then 35 :: SP else []) := by
  have hNwVb : ∀ b ∈ N ++ (if V ≠ [] then 64 :: V else []), unsByte b = true ∨ b = 64 := by
    intro b hb
    rcases List.mem_append.mp hb with h1 | h2
    · exact Or.inl (List.all_eq_true.mp hNuns b h1)
    · by_cases hVe : V = []
      · rw [if_neg (by simp [hVe])] at h2
        cases h2
      · rw [if_pos hVe] at h2
        rcases List.mem_cons.mp h2 with rfl | h3
        · exact Or.inr rfl
        · exact Or.inl (List.all_eq_true.mp hVuns b h3)
  have h64NwV : ∀ (x : GoStr), V ≠ [] → (64 : Nat) ∈ N ++ 64 :: V := by
    intro _ _
    exact List.mem_append.mpr (Or.inr (List.mem_cons_self _ _))
  have hNwVne : N ++ (if V ≠ [] then 64 :: V else []) ≠ [] := by
    intro he
    rw [List.append_eq_nil] at he
    exact hNne he.1
  have hNwVd : N ++ (if V ≠ [] then 64 :: V else []) ≠ [46] := by
    by_cases hVe : V = []
    · rw [if_neg (by simp [hVe]), List.append_nil]
      exact hNd
    · rw [if_pos hVe]
      intro he
      have h64 : (64 : Nat) ∈ ([46] : GoStr) := he ▸ h64NwV [] hVe
      exact absurd h64 (by decide)
  have hNwVdd : N ++ (if V ≠ [] then 64 :: V else []) ≠ [46, 46] := by
    by_cases hVe : V = []
    · rw [if_neg (by simp [hVe]), List.append_nil]
      exact hNdd
    · rw [if_pos hVe]
      intro he
      have h64 : (64 : Nat) ∈ ([46, 46] : GoStr) := he ▸ h64NwV [] hVe
      exact absurd h64 (by decide)
  have hSPesc : ∀ b ∈ SP, shouldEscape b .fragment = false := by
    intro b hb
    rcases hSPb b hb with hu | h47
    · exact shouldEscape_uns _ hu
    · subst h47
      decide
  unfold ToString
  dsimp only
  rw [show pathEscape N = N from
    escape_eq_self (fun b hb => shouldEscape_uns _ (List.all_eq_true.mp hNuns b hb))]
  rw [joinPathEmptyBase_canonical T NS (N ++ (if V ≠ [] then 64 :: V else []))
    hTne hTuns hTd hTdd hNS hNwVne hNwVb hNwVd hNwVdd]
  dsimp only
  rw [show escapedPathFn
      (T ++ (if NS = [] then [] else 47 :: NS) ++
        47 :: (N ++ (if V ≠ [] then 64 :: V else []))) [] =
      T ++ (if NS = [] then [] else 47 :: NS) ++
        47 :: (N ++ (if V ≠ [] then 64 :: V else [])) from by
    unfold escapedPathFn
    rw [if_neg (by simp)]
    rw [if_neg (by
      intro he
      have h47 : (47 : Nat) ∈ gs "*" := by
        rw [← he]
        exact List.mem_append.mpr (Or.inr (List.mem_cons_self _ _))
      exact absurd h47 (by decide))]
    apply escape_eq_self
    intro b hb
    rcases List.mem_append.mp hb with h1 | h2
    · rcases List.mem_append.mp h1 with h3 | h4
      · exact shouldEscape_uns _ (List.all_eq_true.mp hTuns b h3)
      · by_cases hNSe : NS = []
        · rw [if_pos hNSe] at h4
          cases h4
        · rw [if_neg hNSe] at h4
          rcases List.mem_cons.mp h4 with rfl | h5
          · decide
          · rcases hNS with hNSe2 | hsegs
            · exact absurd hNSe2 hNSe
            · rcases mem_splitOnByte_cover NS 47 b h5 with rfl | ⟨p, hp, hbp⟩
              · decide
              · exact shouldEscape_uns _ (List.all_eq_true.mp (hsegs p hp).2.1 b hbp)
    · rcases List.mem_cons.mp h2 with rfl | h3
      · decide
      · rcases hNwVb b h3 with hu | rfl
        · exact shouldEscape_uns _ hu
        · decide]
  unfold urlStringRender
  rw [show escape SP .fragment = SP from escape_eq_self hSPesc]

/-- C1 (amended): parsing inverts serialization on every record whose
fields are already canonical in the byte-level sense of `CanonicalRecord`
(unreserved type/name/version, slash-separated unreserved namespace,
canonical qualifier map, slash-trimmed subpath, fixed-point type
adjustments, no custom-rule violation); for records outside this class the
round trip can fail, as the counterexample with `@` in the name shows. -/
theorem fromString_toString_canonical (r : PackageURL) (h : CanonicalRecord r) :
    FromString (ToString r) = .ok r := by
  obtain ⟨T, NS, N, V, QS, SP⟩ := r
  unfold CanonicalRecord at h
  dsimp only at h
  obtain ⟨⟨hTne, hTuns, hTlow, hTd, hTdd⟩, hNS, ⟨hNne, hNuns, hNd, hNdd⟩, hVuns, hQ,
    ⟨hSPb, hSPh, hSPl⟩, hAdjNS, hAdjN, hAdjV, hRules⟩ := h
  have hNSb : ∀ b ∈ NS, unsByte b = true ∨ b = 47 := by
    intro b hb
    rcases hNS with hNSe | hsegs
    · rw [hNSe] at hb
      cases hb
    · rcases mem_splitOnByte_cover NS 47 b hb with he | ⟨p, hp, hbp⟩
      · exact Or.inr he
      · exact Or.inl (List.all_eq_true.mp (hsegs p hp).2.1 b hbp)
  have hNwVb : ∀ b ∈ N ++ (if V ≠ [] then 64 :: V else []),
      unsByte b = true ∨ b = 64 := by
    intro b hb
    rcases List.mem_append.mp hb with h1 | h2
    · exact Or.inl (List.all_eq_true.mp hNuns b h1)
    · by_cases hVe : V = []
      · rw [if_neg (by simp [hVe])] at h2
        cases h2
      · rw [if_pos hVe] at h2
        rcases List.mem_cons.mp h2 with rfl | h3
        · exact Or.inr rfl
        · exact Or.inl (List.all_eq_true.mp hVuns b h3)
  have ho : ∀ b ∈ T ++ (if NS = [] then [] else 47 :: NS) ++
      47 :: (N ++ (if V ≠ [] then 64 :: V else [])),
      32 ≤ b ∧ b ≠ 127 ∧ b ≠ 35 ∧ b ≠ 63 := by
    intro b hb
    rcases List.mem_append.mp hb with h1 | h2
    · rcases List.mem_append.mp h1 with h3 | h4
      · exact unsByte_urlsafe (List.all_eq_true.mp hTuns b h3)
      · by_cases hNSe : NS = []
        · rw [if_pos hNSe] at h4
          cases h4
        · rw [if_neg hNSe] at h4
          rcases List.mem_cons.mp h4 with rfl | h5
          · decide
          · rcases hNSb b h5 with hu | rfl
            · exact unsByte_urlsafe hu
            · decide
    · rcases List.mem_cons.mp h2 with rfl | h3
      · decide
      · rcases hNwVb b h3 with hu | rfl
        · exact unsByte_urlsafe hu
        · decide
  have ho47 : (T ++ (if NS = [] then [] else 47 :: NS) ++
      47 :: (N ++ (if V ≠ [] then 64 :: V else []))).head? ≠ some 47 := by
    cases T with
    | nil => exact absurd rfl hTne
    | cons t0 T2 =>
      rw [show ((t0 :: T2) ++ (if NS = [] then [] else 47 :: NS) ++
        47 :: (N ++ (if V ≠ [] then 64 :: V else []))).head? = some t0 from rfl]
      intro he
      have ht0 : t0 = 47 := by simpa using he
      exact (unsByte_facts (List.all_eq_true.mp hTuns t0
        (List.mem_cons_self t0 T2))).2.2.1 ht0
  rw [toString_canonical T NS N V QS SP hTne hTuns hTd hTdd hNS hNne hNuns hNd hNdd
    hVuns hSPb]
  unfold FromString
  rw [urlParse_pkg _ _ _ ho ho47 (encode_bytes QS hQ) hSPb]
  dsimp only
  rw [if_neg (by decide : ¬ (gs "pkg" ≠ gs "pkg"))]
  rw [if_neg (show ¬ (T ++ (if NS = [] then [] else 47 :: NS) ++
      47 :: (N ++ (if V ≠ [] then 64 :: V else [])) = []) from by simp)]
  have hsplit : T ++ (if NS = [] then [] else 47 :: NS) ++
      47 :: (N ++ (if V ≠ [] then 64 :: V else [])) =
      T ++ 47 :: (if NS = [] then N ++ (if V ≠ [] then 64 :: V else [])
        else NS ++ 47 :: (N ++ (if V ≠ [] then 64 :: V else []))) := by
    by_cases hNSe : NS = []
    · rw [if_pos hNSe, if_pos hNSe]
      simp
    · rw [if_neg hNSe, if_neg hNSe]
      simp
  rw [hsplit]
  have h47T : (47 : Nat) ∉ T := fun hm =>
    (unsByte_facts (List.all_eq_true.mp hTuns 47 hm)).2.2.1 rfl
  rw [cut_append _ h47T]
  dsimp only
  rw [if_neg (by simp : ¬ (¬ (true = true)))]
  rw [getQualifiers_encode QS hQ]
  dsimp only
  rw [sepNNV_canonical NS N V hNSb hNuns hNne hVuns]
  dsimp only
  rw [hTlow, hAdjNS, hAdjN, hAdjV]
  rw [trimChar_eq_self hSPh hSPl]
  rw [hRules]

/-- Witness for C1 (amended) at a full maven record with namespace,
version, qualifier and subpath. -/
theorem fromString_toString_canonical_witness :
    CanonicalRecord ⟨gs "maven", gs "org.apache.commons", gs "commons-lang3",
      gs "3.12.0", [(gs "type", [gs "jar"])], gs "com/example/Util.class"⟩ ∧
    FromString (ToString ⟨gs "maven", gs "org.apache.commons", gs "commons-lang3",
      gs "3.12.0", [(gs "type", [gs "jar"])], gs "com/example/Util.class"⟩) =
      .ok ⟨gs "maven", gs "org.apache.commons", gs "commons-lang3",
        gs "3.12.0", [(gs "type", [gs "jar"])], gs "com/example/Util.class"⟩ :=
  ⟨by decide, fromString_toString_canonical _ (by decide)⟩

/-! ## Claim theorems -/

/-- C4: the remainder after the type is decomposed by
`separateNamespaceNameVersion` as follows: everything before the last `/`
is the namespace, percent-decoded as one whole string (an encoded `/`
inside it creates no extra level); the substring after the last `/` is
split at the last `@` into name and version, each decoded independently;
without a `/` the namespace is empty, without an `@` the version is empty;
and an empty decoded name is the missing-name error. -/
theorem separateNamespaceNameVersion_spec :
    (∀ ns n v NS N V : GoStr, (47 : Nat) ∉ n ++ 64 :: v → (64 : Nat) ∉ v →
      pathUnescape ns = .ok NS → pathUnescape n = .ok N → pathUnescape v = .ok V →
      N ≠ [] →
      separateNamespaceNameVersion (ns ++ 47 :: (n ++ 64 :: v)) = .ok (NS, N, V)) ∧
    (∀ ns n NS N : GoStr, (47 : Nat) ∉ n → (64 : Nat) ∉ n →
      pathUnescape ns = .ok NS → pathUnescape n = .ok N → N ≠ [] →
      separateNamespaceNameVersion (ns ++ 47 :: n) = .ok (NS, N, [])) ∧
    (∀ n N : GoStr, (47 : Nat) ∉ n → (64 : Nat) ∉ n →
      pathUnescape n = .ok N → N ≠ [] →
      separateNamespaceNameVersion n = .ok ([], N, [])) ∧
    (separateNamespaceNameVersion (gs "a%2Fb/n") = .ok (gs "a/b", gs "n", [])) ∧
    (∀ ns v NS V : GoStr, (47 : Nat) ∉ (64 : Nat) :: v → (64 : Nat) ∉ v →
      pathUnescape ns = .ok NS → pathUnescape v = .ok V →
      separateNamespaceNameVersion (ns ++ 47 :: 64 :: v) = .error .missingName) := by
  refine ⟨?_, ?_, ?_, by decide, ?_⟩
  · intro ns n v NS N V h47 h64 hns hn hv hN
    unfold separateNamespaceNameVersion
    rw [lastIndexByte_append ns (n ++ 64 :: v) h47]
    dsimp only
    rw [take_append_cons, drop_append_cons, hns]
    unfold separateNamespaceNameVersion.separateNameVersion
    rw [lastIndexByte_append n v h64]
    dsimp only
    rw [take_append_cons, drop_append_cons, hv]
    simp only [separateNamespaceNameVersion.finishName, hn]
    rw [if_neg hN]
  · intro ns n NS N h47 h64 hns hn hN
    unfold separateNamespaceNameVersion
    rw [lastIndexByte_append ns n h47]
    dsimp only
    rw [take_append_cons, drop_append_cons, hns]
    unfold separateNamespaceNameVersion.separateNameVersion
    rw [lastIndexByte_of_not_mem h64]
    dsimp only
    simp only [separateNamespaceNameVersion.finishName, hn]
    rw [if_neg hN]
  · intro n N h47 h64 hn hN
    unfold separateNamespaceNameVersion
    rw [lastIndexByte_of_not_mem h47]
    dsimp only
    unfold separateNamespaceNameVersion.separateNameVersion
    rw [lastIndexByte_of_not_mem h64]
    dsimp only
    simp only [separateNamespaceNameVersion.finishName, hn]
    rw [if_neg hN]
  · intro ns v NS V h47 h64 hns hv
    unfold separateNamespaceNameVersion
    rw [lastIndexByte_append ns (64 :: v) h47]
    dsimp only
    rw [take_append_cons, drop_append_cons, hns]
    unfold separateNamespaceNameVersion.separateNameVersion
    have : (64 : Nat) :: v = [] ++ 64 :: v := rfl
    rw [this, lastIndexByte_append [] v h64]
    dsimp only
    rw [take_append_cons, drop_append_cons, hv]
    unfold separateNamespaceNameVersion.finishName
    rfl

/-- Witness for C4: a path with namespace, an `@` inside the name and a
version, split at the last `/` and the last `@`; and a path with no slash
and no version. -/
theorem separateNamespaceNameVersion_spec_witness :
    separateNamespaceNameVersion (gs "ns/a@b@1") = .ok (gs "ns", gs "a@b", gs "1") ∧
    separateNamespaceNameVersion (gs "justname") = .ok ([], gs "justname", []) := by
  constructor
  · have h := separateNamespaceNameVersion_spec.1 (gs "ns") (gs "a@b") (gs "1")
      (gs "ns") (gs "a@b") (gs "1") (by decide) (by decide) (by decide) (by decide)
      (by decide) (by decide)
    exact h
  · have h := separateNamespaceNameVersion_spec.2.2.1 (gs "justname") (gs "justname")
      (by decide) (by decide) (by decide) (by decide)
    exact h

/-- C5: after type adjustment, the per-type structural validation accepts
exactly when the conan/swift/cran rules of the specification hold, and any
violation is the terminal parse error (`FromString` returns the record
if and only if `validCustomRules` returns no error, by definition). -/
theorem validCustomRules_iff_structuralRules (p : PackageURL) :
    validCustomRules p = none ↔ StructuralRulesHold p := by
  have hcs : TypeConan ≠ TypeSwift := by decide
  have hcc : TypeConan ≠ TypeCran := by decide
  have hsc : TypeSwift ≠ TypeCran := by decide
  unfold validCustomRules StructuralRulesHold
  by_cases h1 : p.Type_ = TypeConan
  · by_cases hns : p.Namespace = [] <;>
      cases hch : Values.has p.Qualifiers (gs "channel") <;>
      by_cases hg : Values.get p.Qualifiers (gs "channel") = [] <;>
      simp_all
  · by_cases h2 : p.Type_ = TypeSwift
    · by_cases hns : p.Namespace = [] <;> by_cases hv : p.Version = [] <;> simp_all
    · by_cases h3 : p.Type_ = TypeCran
      · by_cases hv : p.Version = [] <;> simp_all
      · simp_all

/-- Helper for C6: the mlflow branch of `typeAdjustName` dispatches to
`adjustMlflowName`. -/
theorem typeAdjustName_mlflow (name : GoStr) (q : Values) :
    typeAdjustName TypeMLFlow name q = adjustMlflowName name q := by
  unfold typeAdjustName
  rw [if_neg (by decide), if_neg (by decide), if_pos rfl]

/-- Helper: an absent key reads as the empty string. -/
theorem values_get_of_not_has (q : Values) (k : GoStr)
    (h : Values.has q k = false) : Values.get q k = [] := by
  unfold Values.has at h
  unfold Values.get Values.lookupList
  cases hl : q.lookup k with
  | none => simp
  | some vs => rw [hl] at h; simp at h

/-- C6: the mlflow name adjustment applied during parse leaves the name
unchanged when the `repository_url` qualifier is absent, leaves it
unchanged when the qualifier value contains `azureml`, lower-cases it when
the value does not contain `azureml` but contains `databricks`, and leaves
it unchanged for any other value. -/
theorem adjustMlflowName_spec (name : GoStr) (q : Values) :
    (Values.has q (gs "repository_url") = false → adjustMlflowName name q = name) ∧
    (∀ v, Values.get q (gs "repository_url") = v →
      (containsSeq v (gs "azureml") = true → adjustMlflowName name q = name) ∧
      (containsSeq v (gs "azureml") = false → containsSeq v (gs "databricks") = true →
        adjustMlflowName name q = toLowerStr name) ∧
      (containsSeq v (gs "azureml") = false → containsSeq v (gs "databricks") = false →
        adjustMlflowName name q = name)) ∧
    typeAdjustName TypeMLFlow name q = adjustMlflowName name q := by
  refine ⟨?_, ?_, typeAdjustName_mlflow name q⟩
  · intro h
    have hg := values_get_of_not_has q (gs "repository_url") h
    unfold adjustMlflowName
    rw [hg]
    simp
  · intro v hv
    unfold adjustMlflowName
    rw [hv]
    by_cases hemp : v = []
    · subst hemp
      refine ⟨fun haz => by simp, fun haz hdb => ?_, fun _ _ => by simp⟩
      exfalso
      revert hdb
      decide
    · rw [if_neg hemp]
      refine ⟨fun haz => by rw [if_pos haz], fun haz hdb => ?_, fun haz hdb => ?_⟩
      · rw [if_neg (by simp [haz]), if_pos hdb]
      · rw [if_neg (by simp [haz]), if_neg (by simp [hdb])]

/-- Witness for C6 at concrete inputs: a `databricks` repository URL
lower-cases the name, and an absent qualifier leaves it unchanged. -/
theorem adjustMlflowName_spec_witness :
    adjustMlflowName (gs "NaMe") [(gs "repository_url", [gs "https://databricks.x"])] = gs "name" ∧
    adjustMlflowName (gs "NaMe") [] = gs "NaMe" :=
  ⟨(((adjustMlflowName_spec (gs "NaMe") [(gs "repository_url", [gs "https://databricks.x"])]).2.1
      (gs "https://databricks.x") (by decide)).2.1 (by decide) (by decide)).trans (by decide),
   (adjustMlflowName_spec (gs "NaMe") []).1 (by decide)⟩

/-- C2 (code bug): parsing a purl whose query has a qualifier with an empty
value slices the first byte of the empty value and panics, in both the
current parser and the historical ordered-qualifier parser, instead of
returning an ordinary error. -/
theorem fromString_panics_on_empty_qualifier_value :
    FromString (gs "pkg:t/n?key=") = .panicked ∧
    Part000.parseQualifiers (gs "key=") = .panicked := by decide

/-- C1 (counterexample): the record parsed from `pkg:generic/a%40b` is a
valid record with canonical (parser-produced) fields, but serializing it
and parsing the result yields a different record, because the unescaped `@`
in the serialized name is taken as the version separator. -/
theorem roundtrip_counterexample :
    (FromString (gs "pkg:generic/a%40b") =
      .ok ⟨gs "generic", [], gs "a@b", [], [], []⟩) ∧
    validCustomRules ⟨gs "generic", [], gs "a@b", [], [], []⟩ = none ∧
    typeAdjustNamespace (gs "generic") [] = [] ∧
    typeAdjustName (gs "generic") (gs "a@b") [] = gs "a@b" ∧
    typeAdjustVersion (gs "generic") [] = [] ∧
    FromString (ToString ⟨gs "generic", [], gs "a@b", [], [], []⟩) ≠
      .ok ⟨gs "generic", [], gs "a@b", [], [], []⟩ := by decide

/-- C3 (counterexample): a qualifier with an empty value does appear in the
canonical serialized output, as `k=`, both through `ToString` of the
current variant and through `urlQuery` of the ordered variant. -/
theorem emptyValueQualifier_counterexample :
    ToString ⟨gs "t", [], gs "n", [], [(gs "k", [[]])], []⟩ = gs "pkg:t/n?k=" ∧
    containsSeq (ToString ⟨gs "t", [], gs "n", [], [(gs "k", [[]])], []⟩) (gs "k=") = true ∧
    Part000.Qualifiers.urlQuery [⟨gs "k", []⟩] = gs "k=" := by decide

/-- C3 (amended): a qualifier with an empty value appears in the serialized
output as `key=`: for every unreserved key, `ToString` of a record with
that single empty-valued qualifier renders the query `?key=`, and
`urlQuery` of the ordered variant renders `key=` as well; neither
serializer drops the pair. -/
theorem emptyValueQualifier_emitted (k : GoStr) (hkuns : unsStr k = true) :
    ToString ⟨gs "t", [], gs "n", [], [(k, [[]])], []⟩ =
      gs "pkg:t/n?" ++ (k ++ [61]) ∧
    Part000.Qualifiers.urlQuery [⟨k, []⟩] = k ++ [61] := by
  have henc : Values.Encode [(k, [[]])] = k ++ [61] := encode_single_empty k hkuns
  constructor
  · unfold ToString
    dsimp only
    rw [henc]
    rw [if_neg (by simp : ¬ (([] : GoStr) ≠ []))]
    rw [List.append_nil]
    rw [show joinPathEmptyBase [gs "t", [], pathEscape (gs "n")] = (gs "t/n", [])
      from by decide]
    dsimp only
    rw [show escapedPathFn (gs "t/n") [] = gs "t/n" from by decide]
    unfold urlStringRender
    rw [if_pos (by simp : (k ++ [61] : GoStr) ≠ []),
      if_neg (by simp : ¬ (([] : GoStr) ≠ []))]
    rw [List.append_nil]
    rw [show gs "pkg:" ++ gs "t/n" ++ 63 :: (k ++ [61]) =
      gs "pkg:t/n?" ++ (k ++ [61]) from rfl]
  · unfold Part000.Qualifiers.urlQuery
    rw [show List.foldl (fun v qq => Values.add v qq.Key qq.Value) []
      ([⟨k, []⟩] : Part000.Qualifiers) = Values.add [] k [] from rfl]
    rw [values_add_new [] (by simp), List.nil_append]
    exact henc

/-- Witness for C3 (amended) at the key `k`. -/
theorem emptyValueQualifier_emitted_witness :
    ToString ⟨gs "t", [], gs "n", [], [(gs "k", [[]])], []⟩ =
      gs "pkg:t/n?" ++ (gs "k" ++ [61]) ∧
    Part000.Qualifiers.urlQuery [⟨gs "k", []⟩] = gs "k" ++ [61] :=
  emptyValueQualifier_emitted (gs "k") (by decide)

/-- C7 (counterexample): a query with the same key twice parses without any
duplicate-key error; the map-based parser accumulates both values and the
ordered parser keeps both pairs. -/
theorem duplicateKey_counterexample :
    FromString (gs "pkg:t/n?a=1&a=2") =
      .ok ⟨gs "t", [], gs "n", [], [(gs "a", [gs "1", gs "2"])], []⟩ ∧
    Part000.parseQualifiers (gs "a=1&a=2") =
      .ok [⟨gs "a", gs "1"⟩, ⟨gs "a", gs "2"⟩] := by decide

/-- C7 (amended): instead of rejecting a repeated key, the parser
accumulates the values: for every valid, already-lower-case, unreserved key
and non-empty unreserved values, a purl whose query carries `key=v1&key=v2`
parses without error into a record whose qualifier map holds both values
under the key, in query order. -/
theorem duplicateKey_accepted (k v1 v2 : GoStr) (hk : validQualifierKey k = true)
    (hklow : toLowerStr k = k) (hkuns : unsStr k = true)
    (h1 : unsStr v1 = true) (h2 : unsStr v2 = true)
    (h1ne : v1 ≠ []) (h2ne : v2 ≠ []) (hfl : firstValueLower [v1, v2]) :
    FromString (gs "pkg:t/n?" ++ ((k ++ 61 :: v1) ++ 38 :: (k ++ 61 :: v2))) =
      .ok ⟨gs "t", [], gs "n", [], [(k, [v1, v2])], []⟩ := by
  have hu : ∀ b2 : Nat, unsByte b2 = true → 32 ≤ b2 ∧ b2 ≠ 127 ∧ b2 ≠ 35 ∧ b2 ≠ 63 := by
    intro b2 hb2
    obtain ⟨-, -, -, -, a5, a6, -, -, -, -, -, a12, a13⟩ := unsByte_facts hb2
    exact ⟨by omega, a13, a6, a5⟩
  apply fromString_tn_query
  · simp
  · intro b hb
    rcases List.mem_append.mp hb with hA | hB
    · rcases List.mem_append.mp hA with hk1 | hv1m
      · exact hu b (List.all_eq_true.mp hkuns b hk1)
      · rcases List.mem_cons.mp hv1m with rfl | hv1m2
        · decide
        · exact hu b (List.all_eq_true.mp h1 b hv1m2)
    · rcases List.mem_cons.mp hB with rfl | hB2
      · decide
      · rcases List.mem_append.mp hB2 with hk2 | hv2m
        · exact hu b (List.all_eq_true.mp hkuns b hk2)
        · rcases List.mem_cons.mp hv2m with rfl | hv2m2
          · decide
          · exact hu b (List.all_eq_true.mp h2 b hv2m2)
  · exact getQualifiers_dup k v1 v2 hk hklow hkuns h1 h2 h1ne h2ne hfl

/-- Witness for C7 (amended) at `a=1&a=2`. -/
theorem duplicateKey_accepted_witness :
    FromString (gs "pkg:t/n?" ++
        ((gs "a" ++ 61 :: gs "1") ++ 38 :: (gs "a" ++ 61 :: gs "2"))) =
      .ok ⟨gs "t", [], gs "n", [], [(gs "a", [gs "1", gs "2"])], []⟩ :=
  duplicateKey_accepted (gs "a") (gs "1") (gs "2") (by decide) (by decide) (by decide)
    (by decide) (by decide) (by decide) (by decide) (by decide)

/-- C8 (counterexample): an upper-case scheme `PKG:` is accepted, because
URL parsing lower-cases the scheme before `FromString` compares it. -/
theorem upperCaseScheme_counterexample :
    FromString (gs "PKG:generic/name") =
      .ok ⟨gs "generic", [], gs "name", [], [], []⟩ := by decide

/-- C8 (amended): the scheme comparison is effectively case-insensitive,
because URL parsing lower-cases the scheme before `FromString` compares it
with `pkg`: parsing behaves identically on `PKG:` and `pkg:` inputs (and
only inputs whose scheme is not case-insensitively `pkg` fail with the
invalid-scheme error). -/
theorem fromString_scheme_case_insensitive (rest : GoStr) :
    FromString (gs "PKG:" ++ rest) = FromString (gs "pkg:" ++ rest) := by
  unfold FromString
  rw [urlParse_scheme_lower rest]

/-- C9 (counterexample): a subpath containing a `..` segment is not
rejected; it is kept verbatim in the parsed record. -/
theorem subpathDotDot_counterexample :
    FromString (gs "pkg:generic/name#sub/../path") =
      .ok ⟨gs "generic", [], gs "name", [], [], gs "sub/../path"⟩ := by decide

/-- C9 (amended): parsing performs no dot-segment validation on the
subpath: for any fragment of safe bytes, the parsed subpath is exactly the
fragment with leading and trailing `/` trimmed, with `.` and `..` segments
kept verbatim (so `./sub/path` is accepted unchanged, and `sub/../path` is
accepted rather than rejected). -/
theorem subpath_trim_general (frag : GoStr)
    (h : ∀ b ∈ frag, unsByte b = true ∨ b = 47) :
    FromString (gs "pkg:generic/name#" ++ frag) =
      .ok ⟨gs "generic", [], gs "name", [], [], trimChar frag 47⟩ := by
  have hnp : ∀ b ∈ frag, b ≠ 37 ∧ ¬(b = 43 ∧ Encoding.fragment = Encoding.queryComponent) := by
    intro b hb
    refine ⟨?_, by rintro ⟨_, hc⟩; cases hc⟩
    rcases h b hb with hu | h47
    · exact (unsByte_facts hu).1
    · omega
  have hesc : ∀ b ∈ frag, shouldEscape b .fragment = false := by
    intro b hb
    rcases h b hb with hu | h47
    · exact shouldEscape_uns _ hu
    · subst h47
      decide
  unfold FromString urlParse
  rw [show gs "pkg:generic/name#" ++ frag = gs "pkg:generic/name" ++ 35 :: frag from rfl]
  rw [urlSplit_append frag (by decide)]
  dsimp only
  rw [show parseInner (gs "pkg:generic/name") =
    .ok ⟨gs "pkg", gs "generic/name", [], [], [], false, false, [], [], []⟩ from by decide]
  dsimp only
  by_cases hf : frag = []
  · subst hf
    decide
  · rw [if_neg hf]
    have hsf : setFragmentFn frag = some (frag, []) := by
      unfold setFragmentFn
      rw [unescape_eq_self (by decide) (by decide) hnp]
      dsimp only
      rw [if_pos (escape_eq_self hesc)]
    rw [hsf]
    dsimp only
    rw [if_neg (by decide : ¬ (gs "pkg" ≠ gs "pkg"))]
    rw [if_neg (by decide : ¬ (gs "generic/name" = ([] : GoStr)))]
    rw [show cut (gs "generic/name") 47 = (gs "generic", gs "name", true) from by decide]
    dsimp only
    rw [show getQualifiers [] = .ok [] from by decide]
    rw [show separateNamespaceNameVersion (gs "name") = .ok ([], gs "name", []) from by decide]
    dsimp only
    rw [show toLowerStr (gs "generic") = gs "generic" from by decide]
    rw [show typeAdjustNamespace (gs "generic") [] = [] from by decide]
    rw [show typeAdjustName (gs "generic") (gs "name") [] = gs "name" from by decide]
    rw [show typeAdjustVersion (gs "generic") [] = [] from by decide]
    have hv : validCustomRules
        ⟨gs "generic", [], gs "name", [], [], trimChar frag 47⟩ = none := by
      unfold validCustomRules
      dsimp only
      rw [if_neg (by decide), if_neg (by decide), if_neg (by decide)]
    rw [hv]
    simp

/-- Witness for C9 (amended) at the dotted subpath `./sub/path`, which is
accepted unchanged. -/
theorem subpath_trim_general_witness :
    FromString (gs "pkg:generic/name#./sub/path") =
      .ok ⟨gs "generic", [], gs "name", [], [], gs "./sub/path"⟩ := by
  have h := subpath_trim_general (gs "./sub/path") (by decide)
  have he : gs "pkg:generic/name#" ++ gs "./sub/path" = gs "pkg:generic/name#./sub/path" := by
    decide
  have ht : trimChar (gs "./sub/path") 47 = gs "./sub/path" := by decide
  rw [he, ht] at h
  exact h

/-- C10: converting a string map (duplicate-free keys) to the ordered
qualifier representation and back is the identity on the map (as a map,
that is, up to entry permutation); the ordered representation is sorted in
strictly increasing key order; and it does not depend on the iteration
order of the input map. -/
theorem qualifiersFromMap_roundtrip (mm : Part000.GoMap)
    (h : (mm.map Prod.fst).Nodup) :
    (Part000.Qualifiers.Map (Part000.QualifiersFromMap mm)).Perm mm ∧
    ((Part000.QualifiersFromMap mm).map Part000.Qualifier.Key).Pairwise
      (fun a b => lexLt a b = true) ∧
    (∀ mm2 : Part000.GoMap, mm2.Perm mm →
      Part000.QualifiersFromMap mm2 = Part000.QualifiersFromMap mm) := by
  have sortedKeys : ∀ (m : Part000.GoMap), (m.map Prod.fst).Nodup →
      (Part000.QualifiersFromMap m).Pairwise
        (fun a b => lexLt a.Key b.Key = true) := by
    intro m hm
    apply pairwise_strict_of_nodup _ (sortQualifiers_pairwise _)
    have hperm :
        ((Part000.sortQualifiers (m.map fun kv => ⟨kv.1, kv.2⟩)).map
          Part000.Qualifier.Key).Perm (m.map Prod.fst) := by
      have h1 := (sortQualifiers_perm (m.map fun kv => (⟨kv.1, kv.2⟩ : Part000.Qualifier))).map
        Part000.Qualifier.Key
      simpa [Function.comp] using h1
    exact hperm.nodup_iff.mpr hm
  have hkeys : ((Part000.QualifiersFromMap mm).map Part000.Qualifier.Key).Nodup := by
    have hperm :
        ((Part000.QualifiersFromMap mm).map Part000.Qualifier.Key).Perm
          (mm.map Prod.fst) := by
      have h1 := (sortQualifiers_perm (mm.map fun kv => (⟨kv.1, kv.2⟩ : Part000.Qualifier))).map
        Part000.Qualifier.Key
      simpa [Part000.QualifiersFromMap, Function.comp] using h1
    exact hperm.nodup_iff.mpr h
  refine ⟨?_, ?_, ?_⟩
  · rw [qualifiers_map_eq_pairs _ hkeys]
    have h1 := (sortQualifiers_perm (mm.map fun kv => (⟨kv.1, kv.2⟩ : Part000.Qualifier))).map
      fun q => (q.Key, q.Value)
    have h2 : ((mm.map fun kv => (⟨kv.1, kv.2⟩ : Part000.Qualifier)).map
        fun q => (q.Key, q.Value)) = mm := by
      rw [List.map_map]
      have hcomp : ((fun q : Part000.Qualifier => (q.Key, q.Value)) ∘
          fun kv : GoStr × GoStr => (⟨kv.1, kv.2⟩ : Part000.Qualifier)) = id := by
        funext kv
        rfl
      rw [hcomp, List.map_id]
    have h3 : ((mm.map fun kv => (⟨kv.1, kv.2⟩ : Part000.Qualifier)).map
        (fun q => (q.Key, q.Value))).Perm mm := by rw [h2]
    exact h1.trans h3
  · exact List.pairwise_map.mpr (sortedKeys mm h)
  · intro mm2 hp
    have h2 : (mm2.map Prod.fst).Nodup := ((hp.map Prod.fst).nodup_iff).mpr h
    refine strict_sorted_unique ?_ (sortedKeys mm2 h2) (sortedKeys mm h)
    exact ((sortQualifiers_perm _).trans
      (hp.map fun kv => (⟨kv.1, kv.2⟩ : Part000.Qualifier))).trans
      (sortQualifiers_perm _).symm

/-- Witness for C10 at a concrete, unsorted two-entry map. -/
theorem qualifiersFromMap_roundtrip_witness :
    (Part000.Qualifiers.Map
      (Part000.QualifiersFromMap [(gs "os", gs "linux"), (gs "arch", gs "amd64")])).Perm
      [(gs "os", gs "linux"), (gs "arch", gs "amd64")] :=
  (qualifiersFromMap_roundtrip [(gs "os", gs "linux"), (gs "arch", gs "amd64")]
    (by decide)).1

end PurlGo
